import Mathlib

/- Verification of the groundhog layered soil-profile data model and the
De Beer base-resistance pipeline.  The repository ships the tutorials,
notebooks and documentation of the library; the library functions are
modelled from the specification and from the behaviour recorded in the
tutorials, as indicated in each doc comment. -/

namespace Groundhog

/-- Modelled from the spec: a soil parameter value attached to a layer is
either a constant numerical value, a linearly varying numerical value with
explicit top and bottom values, or a categorical string value
(implementation file `groundhog/general/soilprofile.py` is not part of the
distributed sources). -/
inductive ParamVal where
  | num : ℚ → ParamVal
  | lin : ℚ → ℚ → ParamVal
  | str : String → ParamVal
deriving DecidableEq

/-- Modelled from the spec: one layer of a soil profile, a depth interval
`[top, bottom]` with named parameters. -/
structure Layer where
  top : ℚ
  bottom : ℚ
  params : List (String × ParamVal)
deriving DecidableEq

/-- Modelled from the spec: a soil profile is the ordered list of layers. -/
abbrev SoilProfile := List Layer

/-- Two layers are adjacent when the bottom depth of the first equals the
top depth of the second. -/
def adjacent (a b : Layer) : Prop := a.bottom = b.top

instance : DecidableRel adjacent :=
  fun a b => inferInstanceAs (Decidable (a.bottom = b.top))

/-- Contiguity invariant of a soil profile: every pair of consecutive
layers is adjacent. -/
def contiguous (p : SoilProfile) : Prop := List.Chain' adjacent p

/-- Executable check of the contiguity invariant. -/
def contiguousB : SoilProfile → Bool
  | [] => true
  | [_] => true
  | a :: b :: rest => decide (a.bottom = b.top) && contiguousB (b :: rest)

theorem contiguousB_iff : ∀ p : SoilProfile, contiguousB p = true ↔ contiguous p
  | [] => by simp [contiguousB, contiguous]
  | [l] => by simp [contiguousB, contiguous]
  | a :: b :: rest => by
      show (decide (a.bottom = b.top) && contiguousB (b :: rest)) = true ↔ _
      rw [Bool.and_eq_true, decide_eq_true_eq, contiguousB_iff (b :: rest)]
      constructor
      · rintro ⟨h1, h2⟩
        exact List.chain'_cons.mpr ⟨h1, h2⟩
      · intro h
        exact ⟨(List.chain'_cons.mp h).1, (List.chain'_cons.mp h).2⟩

instance (p : SoilProfile) : Decidable (contiguous p) :=
  decidable_of_iff _ (contiguousB_iff p)

/-- Every layer of the profile has its top strictly above its bottom. -/
def ordered (p : SoilProfile) : Prop := ∀ l ∈ p, l.top < l.bottom

instance (p : SoilProfile) : Decidable (ordered p) := List.decidableBAll _ p

/-- A valid profile is contiguous with strictly increasing depths inside
every layer. -/
def validProfile (p : SoilProfile) : Prop := contiguous p ∧ ordered p

instance (p : SoilProfile) : Decidable (validProfile p) :=
  inferInstanceAs (Decidable (_ ∧ _))

/-- Depths strictly increase with the layer index: the top of any later
layer is strictly below the top of any earlier layer. -/
theorem tops_strict_mono {l : Layer} {p : SoilProfile}
    (hc : contiguous (l :: p)) (ho : ordered (l :: p)) :
    ∀ l' ∈ p, l.bottom ≤ l'.top := by
  induction p generalizing l with
  | nil => intro l' hl'; cases hl'
  | cons m rest ih =>
    intro l' hl'
    rcases List.chain'_cons.mp hc with ⟨hlm, hrest⟩
    rcases List.mem_cons.mp hl' with rfl | hmem
    · exact le_of_eq hlm
    · have hm : m.bottom ≤ l'.top := by
        refine ih hrest ?_ l' hmem
        intro x hx; exact ho x (List.mem_cons_of_mem _ hx)
      have : l.bottom < m.bottom := by
        have := ho m (by simp)
        calc l.bottom = m.top := hlm
          _ < m.bottom := this
      exact le_of_lt (lt_of_lt_of_le this hm)

/-- Modelled from the spec: `flip_sign` negates both depth coordinates of a
layer, swapping top and bottom so that the interval again reads downward. -/
def flip_layer (l : Layer) : Layer := ⟨-l.bottom, -l.top, l.params⟩

/-- Modelled from the spec: `convert_depth_sign` negates every depth value
and reverses the layer order so that depths remain increasing. -/
def convert_depth_sign (p : SoilProfile) : SoilProfile :=
  (p.map flip_layer).reverse

theorem flip_layer_involutive (l : Layer) : flip_layer (flip_layer l) = l := by
  cases l; simp [flip_layer]

theorem convert_depth_sign_involutive (p : SoilProfile) :
    convert_depth_sign (convert_depth_sign p) = p := by
  unfold convert_depth_sign
  rw [List.map_reverse, List.reverse_reverse, List.map_map]
  have : flip_layer ∘ flip_layer = id := by
    funext l; exact flip_layer_involutive l
  rw [this, List.map_id]

theorem convert_depth_sign_valid {p : SoilProfile} (h : validProfile p) :
    validProfile (convert_depth_sign p) := by
  obtain ⟨hc, ho⟩ := h
  constructor
  · unfold contiguous convert_depth_sign
    rw [List.chain'_reverse, List.chain'_map]
    refine hc.imp ?_
    intro a b hab
    show (flip_layer b).bottom = (flip_layer a).top
    simp only [flip_layer, neg_inj]
    exact hab.symm
  · intro l hl
    rw [convert_depth_sign, List.mem_reverse, List.mem_map] at hl
    obtain ⟨x, hx, rfl⟩ := hl
    have := ho x hx
    simp [flip_layer]
    linarith

/-- Bottom depth of the last layer of `l :: rest`, written as a structural
helper so that merge proofs need no `getLast` side conditions. -/
def last_bottom (l : Layer) : List Layer → ℚ
  | [] => l.bottom
  | x :: xs => last_bottom x xs

theorem last_bottom_congr {a b : Layer} (h : a.bottom = b.bottom)
    (xs : List Layer) : last_bottom a xs = last_bottom b xs := by
  cases xs with
  | nil => exact h
  | cons x xs => rfl

/-- Modelled from the spec and the soil profile tutorial: merging the first
`k + 1` layers of a profile into a single layer.  As recorded in the
tutorial ("By default, the properties of the top layer are kept", and the
displayed merged row keeps the top layer's `qc from` and `qc to` values),
the merged layer carries every parameter value of the first merged layer;
only the bottom depth is taken from the last merged layer. -/
def merge_head : SoilProfile → ℕ → SoilProfile
  | p, 0 => p
  | [], _ + 1 => []
  | [l], _ + 1 => [l]
  | l₁ :: l₂ :: rest, k + 1 =>
      merge_head (⟨l₁.top, l₂.bottom, l₁.params⟩ :: rest) k

/-- Modelled from the spec and the soil profile tutorial: `merge_layers p i k`
collapses the contiguous range of layers with indices `i` to `i + k` into a
single layer, keeping the parameter values of layer `i`. -/
def merge_layers : SoilProfile → ℕ → ℕ → SoilProfile
  | p, 0, k => merge_head p k
  | [], _ + 1, _ => []
  | l :: rest, i + 1, k => l :: merge_layers rest i k

theorem merge_head_eq (rest : List Layer) :
    ∀ (post : List Layer) (l : Layer),
      merge_head ((l :: rest) ++ post) rest.length =
        ⟨l.top, last_bottom l rest, l.params⟩ :: post := by
  induction rest with
  | nil => intro post l; simp [merge_head, last_bottom]
  | cons l₂ rest' ih =>
    intro post l
    show merge_head (⟨l.top, l₂.bottom, l.params⟩ :: (rest' ++ post))
        rest'.length = _
    rw [show (⟨l.top, l₂.bottom, l.params⟩ : Layer) :: (rest' ++ post) =
        ((⟨l.top, l₂.bottom, l.params⟩ : Layer) :: rest') ++ post from rfl]
    rw [ih post ⟨l.top, l₂.bottom, l.params⟩]
    have : last_bottom (⟨l.top, l₂.bottom, l.params⟩ : Layer) rest' =
        last_bottom l₂ rest' :=
      @last_bottom_congr ⟨l.top, l₂.bottom, l.params⟩ l₂ rfl rest'
    rw [this]
    rfl

theorem merge_layers_eq (pre : List Layer) (rest post : List Layer)
    (l : Layer) :
    merge_layers (pre ++ (l :: rest) ++ post) pre.length rest.length =
      pre ++ ⟨l.top, last_bottom l rest, l.params⟩ :: post := by
  induction pre with
  | nil => simpa using merge_head_eq rest post l
  | cons q pre' ih =>
    show q :: merge_layers (pre' ++ (l :: rest) ++ post) pre'.length
        rest.length = _
    rw [ih]
    rfl

theorem merge_head_zero (p : SoilProfile) : merge_head p 0 = p := by
  cases p with
  | nil => rfl
  | cons a t => cases t <;> rfl

theorem merge_head_nil (k : ℕ) : merge_head [] k = [] := by
  cases k <;> rfl

theorem merge_layers_nil (i k : ℕ) : merge_layers [] i k = [] := by
  cases i with
  | zero => exact merge_head_nil k
  | succ i => rfl

theorem merge_head_valid {p : SoilProfile} (k : ℕ) (h : validProfile p) :
    validProfile (merge_head p k) := by
  induction k generalizing p with
  | zero => rw [merge_head_zero]; exact h
  | succ k ih =>
    match p with
    | [] => exact h
    | [l] => exact h
    | l₁ :: l₂ :: rest =>
      obtain ⟨hc, ho⟩ := h
      rcases List.chain'_cons.mp hc with ⟨h12, hcrest⟩
      show validProfile (merge_head (⟨l₁.top, l₂.bottom, l₁.params⟩ :: rest) k)
      refine ih ⟨?_, ?_⟩
      · cases rest with
        | nil => exact List.chain'_singleton _
        | cons r rest' =>
          refine List.chain'_cons.mpr ⟨?_, (List.chain'_cons.mp hcrest).2⟩
          exact (List.chain'_cons.mp hcrest).1
      · intro x hx
        rcases List.mem_cons.mp hx with rfl | hmem
        · show l₁.top < l₂.bottom
          have h1 : l₁.top < l₁.bottom := ho l₁ (by simp)
          have h2 : l₂.top < l₂.bottom := ho l₂ (by simp)
          have : l₁.bottom = l₂.top := h12
          linarith
        · exact ho x (by simp [hmem])

theorem merge_head_head_top (p : SoilProfile) (k : ℕ) :
    (merge_head p k).head?.map Layer.top = p.head?.map Layer.top := by
  induction k generalizing p with
  | zero => rw [merge_head_zero]
  | succ k ih =>
    match p with
    | [] => rfl
    | [l] => rfl
    | l₁ :: l₂ :: rest =>
      show (merge_head (⟨l₁.top, l₂.bottom, l₁.params⟩ :: rest) k).head?.map
          Layer.top = _
      rw [ih]
      rfl

theorem merge_layers_head_top (p : SoilProfile) (i k : ℕ) :
    (merge_layers p i k).head?.map Layer.top = p.head?.map Layer.top := by
  cases i with
  | zero =>
    cases p with
    | nil => rw [show merge_layers [] 0 k = merge_head [] k from rfl]
             exact merge_head_head_top [] k
    | cons l rest => exact merge_head_head_top (l :: rest) k
  | succ i =>
    cases p with
    | nil => rfl
    | cons l rest => rfl

theorem merge_layers_valid {p : SoilProfile} (i k : ℕ)
    (h : validProfile p) : validProfile (merge_layers p i k) := by
  induction i generalizing p with
  | zero =>
    cases p with
    | nil => exact merge_head_valid k h
    | cons l rest => exact merge_head_valid k h
  | succ i ih =>
    match p with
    | [] => exact h
    | l :: rest =>
      obtain ⟨hc, ho⟩ := h
      have hrest : validProfile rest :=
        ⟨hc.tail, fun x hx => ho x (by simp [hx])⟩
      have hres := ih hrest
      show validProfile (l :: merge_layers rest i k)
      refine ⟨?_, ?_⟩
      · refine List.chain'_cons'.mpr ⟨?_, hres.1⟩
        intro y hy
        cases rest with
        | nil => rw [merge_layers_nil] at hy; cases hy
        | cons r rest' =>
          have hadj : adjacent l r := (List.chain'_cons.mp hc).1
          have h1 : (merge_layers (r :: rest') i k).head?.map Layer.top =
              some r.top := by rw [merge_layers_head_top]; rfl
          have h2 : some (Layer.top y) = some r.top := by
            rw [← h1, Option.mem_def.mp hy]
            rfl
          show l.bottom = y.top
          rw [hadj]
          exact (Option.some.inj h2).symm
      · intro x hx
        rcases List.mem_cons.mp hx with rfl | hmem
        · exact ho x (by simp)
        · exact hres.2 x hmem

/-- Linear interpolation of a linearly varying parameter with endpoint
values `f` and `t` inside layer `l`, evaluated at depth `d`. -/
def interp_at (l : Layer) (f t d : ℚ) : ℚ :=
  f + (t - f) * (d - l.top) / (l.bottom - l.top)

/-- Split a parameter value at depth `d` of layer `l` for the upper part of
the split: a linear variation keeps its `from` value and receives the
interpolated value at `d` as new `to` value; constants and categorical
values are duplicated. -/
def split_upper (l : Layer) (d : ℚ) : String × ParamVal → String × ParamVal
  | (name, ParamVal.lin f t) => (name, ParamVal.lin f (interp_at l f t d))
  | q => q

/-- Split a parameter value at depth `d` of layer `l` for the lower part of
the split. -/
def split_lower (l : Layer) (d : ℚ) : String × ParamVal → String × ParamVal
  | (name, ParamVal.lin f t) => (name, ParamVal.lin (interp_at l f t d) t)
  | q => q

/-- Modelled from the spec: splitting one layer at depth `d`, with linear
parameters split proportionally and constant or categorical parameters
duplicated; a layer not strictly containing `d` is returned unchanged. -/
def split_layer (d : ℚ) (l : Layer) : List Layer :=
  if l.top < d ∧ d < l.bottom then
    [⟨l.top, d, l.params.map (split_upper l d)⟩,
     ⟨d, l.bottom, l.params.map (split_lower l d)⟩]
  else [l]

/-- Modelled from the spec: `insert_layer_transition` splits the layer
containing `d` into two layers meeting at `d`; inserting at an existing
boundary leaves the profile unchanged. -/
def insert_layer_transition (p : SoilProfile) (d : ℚ) : SoilProfile :=
  p.flatMap (split_layer d)

theorem split_layer_head_top (d : ℚ) (l : Layer) :
    (split_layer d l).head?.map Layer.top = some l.top := by
  unfold split_layer
  by_cases h : l.top < d ∧ d < l.bottom <;> simp [h]

theorem insert_head_top (p : SoilProfile) (d : ℚ) :
    (insert_layer_transition p d).head?.map Layer.top =
      p.head?.map Layer.top := by
  cases p with
  | nil => rfl
  | cons l rest =>
    show ((split_layer d l ++ _).head?).map Layer.top = some l.top
    unfold split_layer
    by_cases h : l.top < d ∧ d < l.bottom <;> simp [h]

theorem insert_layer_transition_valid {p : SoilProfile} (d : ℚ)
    (h : validProfile p) : validProfile (insert_layer_transition p d) := by
  induction p with
  | nil => exact ⟨List.chain'_nil, fun l hl => absurd hl (List.not_mem_nil l)⟩
  | cons l rest ih =>
    obtain ⟨hc, ho⟩ := h
    have hrest : validProfile rest :=
      ⟨hc.tail, fun x hx => ho x (by simp [hx])⟩
    obtain ⟨ihc, iho⟩ := ih hrest
    have hl : l.top < l.bottom := ho l (by simp)
    constructor
    · show List.Chain' adjacent (split_layer d l ++ insert_layer_transition rest d)
      rw [List.chain'_append]
      refine ⟨?_, ihc, ?_⟩
      · unfold split_layer
        by_cases hd : l.top < d ∧ d < l.bottom <;> simp [hd]
        rfl
      · intro x hx y hy
        have hxb : x.bottom = l.bottom := by
          unfold split_layer at hx
          by_cases hd : l.top < d ∧ d < l.bottom
          · simp [hd] at hx
            rw [← hx]
          · simp [hd] at hx
            rw [← hx]
        have hyt : some y.top = rest.head?.map Layer.top := by
          rw [← insert_head_top rest d, Option.mem_def.mp hy]
          rfl
        cases rest with
        | nil => simp at hyt
        | cons r rest' =>
          have hadj : adjacent l r := (List.chain'_cons.mp hc).1
          show x.bottom = y.top
          rw [hxb, hadj]
          exact (show y.top = r.top by simpa using hyt).symm
    · intro x hx
      rw [insert_layer_transition] at hx
      rcases List.mem_flatMap.mp hx with ⟨y, hy, hxy⟩
      have hyo : y.top < y.bottom := ho y hy
      unfold split_layer at hxy
      by_cases hd : y.top < d ∧ d < y.bottom <;> simp [hd] at hxy
      · rcases hxy with rfl | rfl
        · exact hd.1
        · exact hd.2
      · rw [hxy]; exact hyo

/-- Boolean membership of a layer in the depth window `[t, b]`, as used by
`cut_profile` to discard layers outside the cut window. -/
def in_window (t b : ℚ) (l : Layer) : Bool :=
  decide (t ≤ l.top) && decide (l.bottom ≤ b)

/-- Modelled from the spec: `cut_profile` inserts layer transitions at both
cut depths and returns the portion of the profile lying inside
`[top_depth, bottom_depth]`, with linear parameters re-interpolated at the
new boundaries by the inserted transitions. -/
def cut_profile (p : SoilProfile) (top_depth bottom_depth : ℚ) : SoilProfile :=
  ((insert_layer_transition (insert_layer_transition p top_depth)
      bottom_depth).filter (in_window top_depth bottom_depth))

theorem filter_window_valid {p : SoilProfile} (t b : ℚ)
    (h : validProfile p) : validProfile (p.filter (in_window t b)) := by
  induction p with
  | nil => exact ⟨List.chain'_nil, fun l hl => absurd hl (List.not_mem_nil l)⟩
  | cons l rest ih =>
    obtain ⟨hc, ho⟩ := h
    have hrest : validProfile rest :=
      ⟨hc.tail, fun x hx => ho x (by simp [hx])⟩
    obtain ⟨ihc, iho⟩ := ih hrest
    by_cases hw : in_window t b l = true
    · rw [List.filter_cons_of_pos hw]
      refine ⟨?_, ?_⟩
      · refine List.chain'_cons'.mpr ⟨?_, ihc⟩
        intro y hy
        cases rest with
        | nil => simp at hy
        | cons r rest' =>
          by_cases hwr : in_window t b r = true
          · rw [List.filter_cons_of_pos hwr] at hy
            have hyr : r = y := by simpa using Option.mem_def.mp hy
            rw [← hyr]
            exact (List.chain'_cons.mp hc).1
          · exfalso
            have hlt : t ≤ l.top :=
              of_decide_eq_true ((Bool.and_eq_true _ _).mp hw).1
            have hlb : l.bottom ≤ b :=
              of_decide_eq_true ((Bool.and_eq_true _ _).mp hw).2
            have hadj : adjacent l r := (List.chain'_cons.mp hc).1
            have hlo : l.top < l.bottom := ho l (by simp)
            have htr : t ≤ r.top := by
              have hb : l.bottom = r.top := hadj
              linarith
            have hrb : b < r.bottom := by
              by_contra hcon
              push_neg at hcon
              exact hwr (by simp [in_window, htr, hcon])
            have hfilter : List.filter (in_window t b) (r :: rest') = [] := by
              rw [List.filter_cons_of_neg hwr]
              refine List.filter_eq_nil_iff.mpr ?_
              intro x hx
              have hxt : r.bottom ≤ x.top :=
                tops_strict_mono hc.tail
                  (fun z hz => ho z (List.mem_cons_of_mem l hz)) x hx
              have hxo : x.top < x.bottom :=
                ho x (List.mem_cons_of_mem l (List.mem_cons_of_mem r hx))
              simp only [in_window, Bool.and_eq_true, decide_eq_true_eq, not_and]
              intro _ hxb
              linarith
            rw [hfilter] at hy
            simp at hy
      · intro x hx
        rcases List.mem_cons.mp hx with h' | h'
        · rw [h']; exact ho l (by simp)
        · exact ho x (by simp [List.mem_of_mem_filter h'])
    · rw [List.filter_cons_of_neg hw]
      exact ⟨ihc, iho⟩

/-- Depths strictly increase with layer index in a valid profile. -/
theorem valid_pairwise_tops {p : SoilProfile} (h : validProfile p) :
    p.Pairwise (fun a b => a.top < b.top) := by
  obtain ⟨hc, ho⟩ := h
  induction p with
  | nil => exact List.Pairwise.nil
  | cons l rest ih =>
    refine List.Pairwise.cons ?_ (ih hc.tail (fun x hx => ho x (by simp [hx])))
    intro l' hl'
    have h1 : l.top < l.bottom := ho l (by simp)
    have h2 : l.bottom ≤ l'.top := tops_strict_mono hc ho l' hl'
    linarith

/-- Lookup of a named parameter value on a layer. -/
def getParam (l : Layer) (name : String) : Option ParamVal :=
  (l.params.find? (fun q => decide (q.1 = name))).map Prod.snd

/-- The four-layer profile `profile_2` of the soil profile tutorial. -/
def profile_2 : SoilProfile :=
  [⟨0, 1, [("Soil type", ParamVal.str "SAND"),
           ("qc [MPa]", ParamVal.lin 3 4),
           ("qt [MPa]", ParamVal.num (7/2)),
           ("Subm unit weight [kN/m3]", ParamVal.num 9)]⟩,
   ⟨1, 3, [("Soil type", ParamVal.str "CLAY"),
           ("qc [MPa]", ParamVal.lin 1 (3/2)),
           ("qt [MPa]", ParamVal.num (5/4)),
           ("Subm unit weight [kN/m3]", ParamVal.num 8)]⟩,
   ⟨3, 4, [("Soil type", ParamVal.str "SILT"),
           ("qc [MPa]", ParamVal.lin 4 8),
           ("qt [MPa]", ParamVal.num 6),
           ("Subm unit weight [kN/m3]", ParamVal.num 9)]⟩,
   ⟨4, 10, [("Soil type", ParamVal.str "SAND"),
           ("qc [MPa]", ParamVal.lin 40 50),
           ("qt [MPa]", ParamVal.num 45),
           ("Subm unit weight [kN/m3]", ParamVal.num 10)]⟩]

/-- A two-layer profile with a linearly varying `qc`, shaped like the
split sand layer of the soil profile tutorial (the tutorial's own merged
row keeps `qc to = 140/3`, the top layer's value, instead of the bottom
layer's 50). -/
def merge_demo : SoilProfile :=
  [⟨4, 8, [("Soil type", ParamVal.str "SAND"),
           ("qc [MPa]", ParamVal.lin 40 44)]⟩,
   ⟨8, 10, [("Soil type", ParamVal.str "SAND"),
           ("qc [MPa]", ParamVal.lin 44 50)]⟩]

/-- C2: the claim as stated is false on the recorded behaviour of
`merge_layers`.  Merging the contiguous range (0, 1) of `merge_demo`
keeps the first layer's `to` value 44 for the linearly varying parameter
`qc [MPa]`, not the last layer's `to` value 50 that the claim asserts. -/
theorem C2_counterexample :
    validProfile merge_demo ∧
    ((merge_layers merge_demo 0 1)[0]?).map
        (fun l => getParam l "qc [MPa]") =
      some (some (ParamVal.lin 40 44)) ∧
    ¬ (((merge_layers merge_demo 0 1)[0]?).map
        (fun l => getParam l "qc [MPa]") =
      some (some (ParamVal.lin 40 50))) := by decide

/-- C2 (amended): `merge_layers` collapses a contiguous range of layers
into a single layer that keeps every parameter value of the first layer of
the range — constants, categoricals, and both endpoints of linearly
varying parameters — while only the bottom depth is taken from the last
layer of the range; layers outside the range are unchanged. -/
theorem C2_merge_keeps_first_layer (pre rest post : List Layer) (l : Layer) :
    merge_layers (pre ++ (l :: rest) ++ post) pre.length rest.length =
      pre ++ ⟨l.top, last_bottom l rest, l.params⟩ :: post :=
  merge_layers_eq pre rest post l

/-- C3: after `insert_layer_transition`, `merge_layers` or `cut_profile`
on a valid profile, every adjacent layer pair still satisfies
`layer[i].bottom = layer[i+1].top`, every layer still has its top strictly
above its bottom, and layer depths strictly increase with index. -/
theorem C3_mutations_preserve_contiguity (p : SoilProfile)
    (h : validProfile p) (d t b : ℚ) (i k : ℕ) :
    (validProfile (insert_layer_transition p d) ∧
      (insert_layer_transition p d).Pairwise (fun a b => a.top < b.top)) ∧
    (validProfile (merge_layers p i k) ∧
      (merge_layers p i k).Pairwise (fun a b => a.top < b.top)) ∧
    (validProfile (cut_profile p t b) ∧
      (cut_profile p t b).Pairwise (fun a b => a.top < b.top)) := by
  have h1 := insert_layer_transition_valid d h
  have h2 := merge_layers_valid i k h
  have h3 : validProfile (cut_profile p t b) :=
    filter_window_valid t b
      (insert_layer_transition_valid b (insert_layer_transition_valid t h))
  exact ⟨⟨h1, valid_pairwise_tops h1⟩, ⟨h2, valid_pairwise_tops h2⟩,
    ⟨h3, valid_pairwise_tops h3⟩⟩

/-- C3 witness: the three mutations of the tutorial profile keep it
contiguous and strictly increasing. -/
theorem C3_witness :
    validProfile profile_2 ∧
    validProfile (insert_layer_transition profile_2 8) ∧
    validProfile (merge_layers profile_2 2 1) ∧
    validProfile (cut_profile profile_2 (1/2) 8) :=
  ⟨by decide,
   ((C3_mutations_preserve_contiguity profile_2 (by decide) 8 (1/2) 8 2 1).1).1,
   ((C3_mutations_preserve_contiguity profile_2 (by decide) 8 (1/2) 8 2 1).2.1).1,
   ((C3_mutations_preserve_contiguity profile_2 (by decide) 8 (1/2) 8 2 1).2.2).1⟩

/-- C5: `convert_depth_sign` applied twice restores the depth values and
layer order exactly; one application maps the layer sequence to the
reversed sequence of depth-negated layers and keeps the profile valid, so
depths remain increasing. -/
theorem C5_flip_sign_involution (p : SoilProfile) :
    convert_depth_sign (convert_depth_sign p) = p ∧
    (validProfile p → validProfile (convert_depth_sign p)) ∧
    (convert_depth_sign p).map (fun l => (l.top, l.bottom)) =
      (p.map (fun l => (-l.bottom, -l.top))).reverse := by
  refine ⟨convert_depth_sign_involutive p, convert_depth_sign_valid, ?_⟩
  unfold convert_depth_sign
  rw [List.map_reverse, List.map_map]
  rfl

/-- C5 witness: the flip applied to the tutorial profile. -/
theorem C5_witness :
    validProfile profile_2 ∧ validProfile (convert_depth_sign profile_2) ∧
    convert_depth_sign (convert_depth_sign profile_2) = profile_2 :=
  ⟨by decide, (C5_flip_sign_involution profile_2).2.1 (by decide),
   (C5_flip_sign_involution profile_2).1⟩

/-- Modelled from the spec: the error taxonomy of the core. -/
inductive GError where
  | outOfRange
  | missingParameter
  | insufficientData
  | unknownSoilType
  | notReady
  | invalidGeometry
deriving DecidableEq

/-- Constant numerical value of a parameter on a layer, if present. -/
def getConst (l : Layer) (name : String) : Option ℚ :=
  match getParam l name with
  | some (ParamVal.num v) => some v
  | _ => none

/-- Endpoint values of a linearly varying parameter on a layer, if
present. -/
def getLin (l : Layer) (name : String) : Option (ℚ × ℚ) :=
  match getParam l name with
  | some (ParamVal.lin f t) => some (f, t)
  | _ => none

/-- Modelled from the spec: the running integral of a constant-per-layer
parameter times thickness, from a given entering value.  Each output layer
receives the linearly varying output column whose `from` is the cumulative
value entering the layer and whose `to` adds the layer's contribution; the
new column is put in front so that it takes priority on lookup, as a
dataframe column assignment overwrites an existing column.  A traversed
layer without a constant value of the parameter yields
`MissingParameterError`. -/
def depth_integration_from (param out : String) :
    ℚ → SoilProfile → Except GError SoilProfile
  | _, [] => .ok []
  | acc, l :: rest =>
    match getConst l param with
    | none => .error .missingParameter
    | some γ =>
      match depth_integration_from param out (acc + γ * (l.bottom - l.top)) rest with
      | .error e => .error e
      | .ok rs => .ok (⟨l.top, l.bottom,
          (out, ParamVal.lin acc (acc + γ * (l.bottom - l.top))) :: l.params⟩ :: rs)

/-- Modelled from the spec: `depth_integration(parameter, output_name,
start_value)` on a soil profile. -/
def depth_integration (p : SoilProfile) (param out : String)
    (start : ℚ) : Except GError SoilProfile :=
  depth_integration_from param out start p

/-- Hydrostatic pressure at depth `z` for a water level `wl` and water
unit weight `γw`: zero above the water level, linear below. -/
def hydrostatic_at (wl γw z : ℚ) : ℚ := γw * max (z - wl) 0

/-- Modelled from the spec: `calculate_overburden(water_level,
water_unit_weight)` first ensures a layer boundary at the water level by
inserting a transition, integrates the total unit weight into the total
vertical stress, computes hydrostatic pressure by linear integration of
the water unit weight below the water level, and stores the effective
vertical stress as total minus hydrostatic clipped to be non-negative. -/
def calculate_overburden (p : SoilProfile) (wl γw : ℚ) :
    Except GError SoilProfile :=
  match depth_integration (insert_layer_transition p wl)
      "Total unit weight [kN/m3]" "Total vertical stress [kPa]" 0 with
  | .error e => .error e
  | .ok q => .ok (q.map (fun l =>
      match getLin l "Total vertical stress [kPa]" with
      | some (f, t) =>
        ⟨l.top, l.bottom,
          ("Hydrostatic pressure [kPa]",
            ParamVal.lin (hydrostatic_at wl γw l.top)
              (hydrostatic_at wl γw l.bottom)) ::
          ("Effective vertical stress [kPa]",
            ParamVal.lin (max (f - hydrostatic_at wl γw l.top) 0)
              (max (t - hydrostatic_at wl γw l.bottom) 0)) :: l.params⟩
      | none => l))

/-- Modelled from the spec: parameter lookup at a depth for a linearly
varying parameter, interpolating inside the containing layer; a depth
outside the profile yields `OutOfRangeError`. -/
def lookup_lin (p : SoilProfile) (name : String) (z : ℚ) : Except GError ℚ :=
  match p.find? (fun l => decide (l.top ≤ z) && decide (z ≤ l.bottom)) with
  | some l =>
    match getLin l name with
    | some (f, t) => .ok (interp_at l f t z)
    | none => .error .missingParameter
  | none => .error .outOfRange

theorem depth_integration_out (param out : String) :
    ∀ (acc : ℚ) (p q : SoilProfile),
      depth_integration_from param out acc p = .ok q →
      ∀ l ∈ q, ∃ ft, getLin l out = some ft := by
  intro acc p
  induction p generalizing acc with
  | nil =>
    intro q hq l hl
    simp only [depth_integration_from, Except.ok.injEq] at hq
    rw [← hq] at hl
    cases hl
  | cons x rest ih =>
    intro q hq l hl
    rw [depth_integration_from] at hq
    split at hq
    · simp at hq
    · split at hq
      · simp at hq
      · next rs hrec =>
        rename_i u γ hγ v
        have hq' := Except.ok.inj hq
        rw [← hq'] at hl
        rcases List.mem_cons.mp hl with rfl | hmem
        · exact ⟨(acc, acc + γ * (x.bottom - x.top)),
            by simp [getLin, getParam, List.find?]⟩
        · exact ih _ rs hrec l hmem

/-- The two-layer overburden example of the spec: sand of total unit
weight 19 over clay of total unit weight 17, down to 10 m. -/
def overburden_example : SoilProfile :=
  [⟨0, 5, [("Soil type", ParamVal.str "SAND"),
           ("Total unit weight [kN/m3]", ParamVal.num 19)]⟩,
   ⟨5, 10, [("Soil type", ParamVal.str "CLAY"),
           ("Total unit weight [kN/m3]", ParamVal.num 17)]⟩]

theorem getConst_eval (top bottom : ℚ) (s v : String × ParamVal)
    (name : String) (w : ℚ) (h1 : (s.1 = name) = False)
    (h2 : v = (name, ParamVal.num w)) :
    getConst ⟨top, bottom, [s, v]⟩ name = some w := by
  subst h2
  simp [getConst, getParam, List.find?, h1]

theorem getLin_head (top bottom f t : ℚ) (name : String)
    (rest : List (String × ParamVal)) :
    getLin ⟨top, bottom, (name, ParamVal.lin f t) :: rest⟩ name =
      some (f, t) := by
  simp [getLin, getParam, List.find?]

theorem overburden_example_insert :
    insert_layer_transition overburden_example (5/2) =
      [⟨0, 5/2, [("Soil type", ParamVal.str "SAND"),
           ("Total unit weight [kN/m3]", ParamVal.num 19)]⟩,
       ⟨5/2, 5, [("Soil type", ParamVal.str "SAND"),
           ("Total unit weight [kN/m3]", ParamVal.num 19)]⟩,
       ⟨5, 10, [("Soil type", ParamVal.str "CLAY"),
           ("Total unit weight [kN/m3]", ParamVal.num 17)]⟩] := by
  norm_num [insert_layer_transition, overburden_example, split_layer,
    split_upper, split_lower, List.flatMap]

theorem overburden_example_total :
    depth_integration (insert_layer_transition overburden_example (5/2))
      "Total unit weight [kN/m3]" "Total vertical stress [kPa]" 0 =
    .ok
      [⟨0, 5/2, [("Total vertical stress [kPa]", ParamVal.lin 0 (95/2)),
           ("Soil type", ParamVal.str "SAND"),
           ("Total unit weight [kN/m3]", ParamVal.num 19)]⟩,
       ⟨5/2, 5, [("Total vertical stress [kPa]", ParamVal.lin (95/2) 95),
           ("Soil type", ParamVal.str "SAND"),
           ("Total unit weight [kN/m3]", ParamVal.num 19)]⟩,
       ⟨5, 10, [("Total vertical stress [kPa]", ParamVal.lin 95 180),
           ("Soil type", ParamVal.str "CLAY"),
           ("Total unit weight [kN/m3]", ParamVal.num 17)]⟩] := by
  rw [overburden_example_insert]
  simp [depth_integration, depth_integration_from, getConst_eval]
  norm_num

theorem overburden_example_result :
    calculate_overburden overburden_example (5/2) 10 =
    .ok
      [⟨0, 5/2, [("Hydrostatic pressure [kPa]", ParamVal.lin 0 0),
           ("Effective vertical stress [kPa]", ParamVal.lin 0 (95/2)),
           ("Total vertical stress [kPa]", ParamVal.lin 0 (95/2)),
           ("Soil type", ParamVal.str "SAND"),
           ("Total unit weight [kN/m3]", ParamVal.num 19)]⟩,
       ⟨5/2, 5, [("Hydrostatic pressure [kPa]", ParamVal.lin 0 25),
           ("Effective vertical stress [kPa]", ParamVal.lin (95/2) 70),
           ("Total vertical stress [kPa]", ParamVal.lin (95/2) 95),
           ("Soil type", ParamVal.str "SAND"),
           ("Total unit weight [kN/m3]", ParamVal.num 19)]⟩,
       ⟨5, 10, [("Hydrostatic pressure [kPa]", ParamVal.lin 25 75),
           ("Effective vertical stress [kPa]", ParamVal.lin 70 105),
           ("Total vertical stress [kPa]", ParamVal.lin 95 180),
           ("Soil type", ParamVal.str "CLAY"),
           ("Total unit weight [kN/m3]", ParamVal.num 17)]⟩] := by
  simp [calculate_overburden, overburden_example_total, getLin_head,
    hydrostatic_at, max_def]
  norm_num

/-- C4: every layer written by `calculate_overburden` carries an effective
vertical stress equal to the total vertical stress minus the hydrostatic
pressure, clipped to be non-negative, with the hydrostatic pressure the
linear integral of the water unit weight below the water level; and on
the profile [0–5 m γ=19, 5–10 m γ=17] with water level 2.5 m and water
unit weight 10, the values at 10 m depth are 75 kPa hydrostatic, 180 kPa
total and 105 kPa effective. -/
theorem C4_overburden (p : SoilProfile) (wl γw : ℚ) (q : SoilProfile)
    (hq : calculate_overburden p wl γw = .ok q) :
    (∀ l ∈ q, ∃ f t,
      getLin l "Total vertical stress [kPa]" = some (f, t) ∧
      getLin l "Hydrostatic pressure [kPa]" =
        some (hydrostatic_at wl γw l.top, hydrostatic_at wl γw l.bottom) ∧
      getLin l "Effective vertical stress [kPa]" =
        some (max (f - hydrostatic_at wl γw l.top) 0,
              max (t - hydrostatic_at wl γw l.bottom) 0)) ∧
    (calculate_overburden overburden_example (5/2) 10).map
        (fun r => (lookup_lin r "Hydrostatic pressure [kPa]" 10,
                   lookup_lin r "Total vertical stress [kPa]" 10,
                   lookup_lin r "Effective vertical stress [kPa]" 10)) =
      .ok (.ok 75, .ok 180, .ok 105) := by
  constructor
  · intro l hl
    rw [calculate_overburden] at hq
    split at hq
    · simp at hq
    · next q0 hint =>
      have hq' := Except.ok.inj hq
      rw [← hq'] at hl
      rcases List.mem_map.mp hl with ⟨x, hx, hxl⟩
      obtain ⟨⟨f, t⟩, hft⟩ :=
        depth_integration_out _ _ 0 _ q0 hint x hx
      simp only [hft] at hxl
      refine ⟨f, t, ?_, ?_, ?_⟩
      · rw [← hxl, ← hft]
        simp [getLin, getParam, List.find?]
      · rw [← hxl]
        simp [getLin, getParam, List.find?]
      · rw [← hxl]
        simp [getLin, getParam, List.find?]
  · rw [overburden_example_result]
    norm_num [lookup_lin, getLin, getParam, List.find?, interp_at,
      Except.map]
    exact ⟨rfl, rfl⟩


/-- C4 witness: the spec's overburden example, with the general clipping
property instantiated on it. -/
theorem C4_witness :
    ∃ q, calculate_overburden overburden_example (5/2) 10 = Except.ok q ∧
      ∀ l ∈ q, ∃ f t,
        getLin l "Total vertical stress [kPa]" = some (f, t) ∧
        getLin l "Hydrostatic pressure [kPa]" =
          some (hydrostatic_at (5/2) 10 l.top,
                hydrostatic_at (5/2) 10 l.bottom) ∧
        getLin l "Effective vertical stress [kPa]" =
          some (max (f - hydrostatic_at (5/2) 10 l.top) 0,
                max (t - hydrostatic_at (5/2) 10 l.bottom) 0) :=
  ⟨_, overburden_example_result,
    (C4_overburden overburden_example (5/2) 10 _ overburden_example_result).1⟩

/-- Minimum of a list of rationals, 0 for the empty list, as taken by the
resampler over the raw depth array. -/
def list_min : List ℚ → ℚ
  | [] => 0
  | [a] => a
  | a :: b :: rest => min a (list_min (b :: rest))

/-- Maximum of a list of rationals, 0 for the empty list. -/
def list_max : List ℚ → ℚ
  | [] => 0
  | [a] => a
  | a :: b :: rest => max a (list_max (b :: rest))

theorem list_min_le (l : List ℚ) : ∀ x ∈ l, list_min l ≤ x := by
  induction l with
  | nil => intro x hx; cases hx
  | cons a rest ih =>
    intro x hx
    cases rest with
    | nil =>
      rcases List.mem_cons.mp hx with rfl | h'
      · exact le_refl _
      · cases h'
    | cons b rest' =>
      show min a (list_min (b :: rest')) ≤ x
      rcases List.mem_cons.mp hx with rfl | hmem
      · exact min_le_left _ _
      · exact le_trans (min_le_right _ _) (ih x hmem)

theorem le_list_max (l : List ℚ) : ∀ x ∈ l, x ≤ list_max l := by
  induction l with
  | nil => intro x hx; cases hx
  | cons a rest ih =>
    intro x hx
    cases rest with
    | nil =>
      rcases List.mem_cons.mp hx with rfl | h'
      · exact le_refl _
      · cases h'
    | cons b rest' =>
      show x ≤ max a (list_max (b :: rest'))
      rcases List.mem_cons.mp hx with rfl | hmem
      · exact le_max_left _ _
      · exact le_trans (ih x hmem) (le_max_right _ _)

theorem list_min_mem : ∀ (l : List ℚ), l ≠ [] → list_min l ∈ l := by
  intro l
  induction l with
  | nil => intro h; cases h rfl
  | cons a rest ih =>
    intro _
    cases rest with
    | nil => simp [list_min]
    | cons b rest' =>
      show min a (list_min (b :: rest')) ∈ _
      rcases le_total a (list_min (b :: rest')) with hle | hle
      · rw [min_eq_left hle]; simp
      · rw [min_eq_right hle]
        exact List.mem_cons_of_mem _ (ih (by simp))

theorem list_max_mem : ∀ (l : List ℚ), l ≠ [] → list_max l ∈ l := by
  intro l
  induction l with
  | nil => intro h; cases h rfl
  | cons a rest ih =>
    intro _
    cases rest with
    | nil => simp [list_max]
    | cons b rest' =>
      show max a (list_max (b :: rest')) ∈ _
      rcases le_total (list_max (b :: rest')) a with hle | hle
      · rw [max_eq_left hle]; simp
      · rw [max_eq_right hle]
        exact List.mem_cons_of_mem _ (ih (by simp))

theorem list_min_le_list_max (l : List ℚ) (h : l ≠ []) :
    list_min l ≤ list_max l :=
  le_list_max l _ (list_min_mem l h)

/-- Linear interpolation of tabulated (depth, value) pairs at position
`z`, clamping to the end values outside the table, as `numpy.interp`
behaves on sorted data. -/
def interp_pairs : List (ℚ × ℚ) → ℚ → ℚ
  | [], _ => 0
  | [(_, v)], _ => v
  | (d₁, v₁) :: (d₂, v₂) :: rest, z =>
    if z ≤ d₁ then v₁
    else if z ≤ d₂ then v₁ + (v₂ - v₁) * (z - d₁) / (d₂ - d₁)
    else interp_pairs ((d₂, v₂) :: rest) z

/-- Modelled from the spec: the resampled depth axis runs from the
minimum to the maximum of the original depths at the fixed spacing,
keeping the exact extremes as first and last nodes even when the span is
not a multiple of the spacing. -/
def resample_axis (dmin dmax spacing : ℚ) : List ℚ :=
  (List.range (⌈(dmax - dmin) / spacing⌉).toNat).map
    (fun k : ℕ => dmin + (k : ℚ) * spacing) ++ [dmax]

/-- Modelled from the spec: `resample_data` linearly interpolates the
signal onto the new fixed-spacing axis; fewer than two input samples
yield `InsufficientDataError`. -/
def resample_data (depth value : List ℚ) (spacing : ℚ) :
    Except GError (List ℚ × List ℚ) :=
  if depth.length < 2 then .error .insufficientData
  else
    .ok (resample_axis (list_min depth) (list_max depth) spacing,
      (resample_axis (list_min depth) (list_max depth) spacing).map
        (interp_pairs (depth.zip value)))

theorem resample_axis_head (dmin dmax s : ℚ) (hs : 0 < s)
    (hle : dmin ≤ dmax) :
    (resample_axis dmin dmax s).head? = some dmin := by
  rcases eq_or_lt_of_le hle with heq | hlt
  · rw [← heq]
    unfold resample_axis
    simp
  · unfold resample_axis
    have hpos : 0 < ⌈(dmax - dmin) / s⌉ :=
      Int.ceil_pos.mpr (div_pos (by linarith) hs)
    have hpos' : 0 < (⌈(dmax - dmin) / s⌉).toNat := by omega
    obtain ⟨n, hn⟩ : ∃ n, (⌈(dmax - dmin) / s⌉).toNat = n + 1 :=
      ⟨_, (Nat.succ_pred_eq_of_pos hpos').symm⟩
    rw [hn, List.range_succ_eq_map]
    simp

theorem resample_axis_last (dmin dmax s : ℚ) :
    (resample_axis dmin dmax s).getLast? = some dmax := by
  unfold resample_axis
  exact List.getLast?_concat _

/-- C7: with fewer than two samples `resample_data` fails with
`InsufficientDataError`; with at least two samples it returns a
fixed-spacing axis whose first node is the minimum of the original depths
and whose last node is the maximum of the original depths — even when
those extremes are not multiples of the spacing — together with the
values linearly interpolated from the input signal. -/
theorem C7_resample (depth value : List ℚ) (spacing : ℚ)
    (hs : 0 < spacing) :
    (depth.length < 2 →
      resample_data depth value spacing = .error .insufficientData) ∧
    (2 ≤ depth.length →
      resample_data depth value spacing =
        .ok (resample_axis (list_min depth) (list_max depth) spacing,
          (resample_axis (list_min depth) (list_max depth) spacing).map
            (interp_pairs (depth.zip value))) ∧
      (resample_axis (list_min depth) (list_max depth) spacing).head? =
        some (list_min depth) ∧
      (resample_axis (list_min depth) (list_max depth) spacing).getLast? =
        some (list_max depth) ∧
      (∀ x ∈ depth, list_min depth ≤ x ∧ x ≤ list_max depth) ∧
      list_min depth ∈ depth ∧ list_max depth ∈ depth) := by
  constructor
  · intro hlen
    rw [resample_data, if_pos hlen]
  · intro hlen
    have hne : depth ≠ [] := by
      intro h
      rw [h] at hlen
      simp at hlen
    refine ⟨?_, ?_, ?_, ?_, ?_, ?_⟩
    · rw [resample_data, if_neg (by omega)]
    · exact resample_axis_head _ _ _ hs (list_min_le_list_max depth hne)
    · exact resample_axis_last _ _ _
    · intro x hx
      exact ⟨list_min_le depth x hx, le_list_max depth x hx⟩
    · exact list_min_mem depth hne
    · exact list_max_mem depth hne

/-- C7 witness: a two-sample signal resampled at unit spacing. -/
theorem C7_witness :
    (([0, 1] : List ℚ).length < 2 →
      resample_data [0, 1] [5, 7] 1 = .error .insufficientData) ∧
    (2 ≤ ([0, 1] : List ℚ).length →
      resample_data [0, 1] [5, 7] 1 =
        .ok (resample_axis (list_min [0, 1]) (list_max [0, 1]) 1,
          (resample_axis (list_min [0, 1]) (list_max [0, 1]) 1).map
            (interp_pairs (List.zip [0, 1] [5, 7]))) ∧
      (resample_axis (list_min [0, 1]) (list_max [0, 1]) 1).head? =
        some (list_min [0, 1]) ∧
      (resample_axis (list_min [0, 1]) (list_max [0, 1]) 1).getLast? =
        some (list_max [0, 1]) ∧
      (∀ x ∈ ([0, 1] : List ℚ), list_min [0, 1] ≤ x ∧ x ≤ list_max [0, 1]) ∧
      list_min [0, 1] ∈ ([0, 1] : List ℚ) ∧
      list_max [0, 1] ∈ ([0, 1] : List ℚ)) :=
  C7_resample [0, 1] [5, 7] 1 (by decide)

/-- Remove consecutive duplicates, turning a weakly sorted list into a
strictly sorted one. -/
def dedup_sorted : List ℚ → List ℚ
  | [] => []
  | [a] => [a]
  | a :: b :: rest =>
    if a = b then dedup_sorted (b :: rest)
    else a :: dedup_sorted (b :: rest)

theorem dedup_sorted_mem : ∀ (l : List ℚ) (x : ℚ),
    x ∈ dedup_sorted l ↔ x ∈ l
  | [], x => Iff.rfl
  | [a], x => Iff.rfl
  | a :: b :: rest, x => by
      by_cases h : a = b
      · rw [dedup_sorted, if_pos h, dedup_sorted_mem (b :: rest), h]
        simp [List.mem_cons]
      · rw [dedup_sorted, if_neg h]
        simp [List.mem_cons, dedup_sorted_mem (b :: rest) x]

theorem dedup_sorted_head : ∀ (b : ℚ) (rest : List ℚ),
    (dedup_sorted (b :: rest)).head? = some b
  | _, [] => rfl
  | b, c :: rest => by
      by_cases h : b = c
      · rw [dedup_sorted, if_pos h, dedup_sorted_head c rest, h]
      · rw [dedup_sorted, if_neg h]
        rfl

theorem dedup_sorted_chain : ∀ l : List ℚ, List.Chain' (· ≤ ·) l →
    List.Chain' (· < ·) (dedup_sorted l)
  | [], _ => List.chain'_nil
  | [a], _ => List.chain'_singleton a
  | a :: b :: rest, h => by
      rcases List.chain'_cons.mp h with ⟨hab, hrest⟩
      have ih := dedup_sorted_chain (b :: rest) hrest
      by_cases heq : a = b
      · rw [dedup_sorted, if_pos heq]
        exact ih
      · rw [dedup_sorted, if_neg heq]
        refine List.chain'_cons'.mpr ⟨?_, ih⟩
        intro y hy
        rw [dedup_sorted_head b rest] at hy
        have hyb : b = y := by simpa using Option.mem_def.mp hy
        rw [← hyb]
        exact lt_of_le_of_ne hab heq

/-- Top depth of a profile (0 for the empty profile). -/
def profile_top : SoilProfile → ℚ
  | [] => 0
  | l :: _ => l.top

/-- Bottom depth of a profile (0 for the empty profile). -/
def profile_bottom (p : SoilProfile) : ℚ :=
  ((p.getLast?).map Layer.bottom).getD 0

/-- Every layer-interface depth of the profile. -/
def interfaces (p : SoilProfile) : List ℚ :=
  p.flatMap (fun l => [l.top, l.bottom])

/-- Modelled from the spec: the regular grid points `top, top + dz,
top + 2·dz, ...` not exceeding the profile bottom. -/
def grid_regular (p : SoilProfile) (dz : ℚ) : List ℚ :=
  (List.range (⌊(profile_bottom p - profile_top p) / dz⌋.toNat + 1)).map
    (fun k : ℕ => profile_top p + (k : ℚ) * dz)

/-- Modelled from the spec: the node depths of a `CalculationGrid` are the
regular points unioned with every layer-interface depth, deduplicated
and sorted. -/
def grid_nodes (p : SoilProfile) (dz : ℚ) : List ℚ :=
  dedup_sorted
    (List.insertionSort (· ≤ ·) (grid_regular p dz ++ interfaces p))

/-- Consecutive pairs of a list of node depths: the element intervals of
the grid. -/
def mk_elements : List ℚ → List (ℚ × ℚ)
  | [] => []
  | [_] => []
  | a :: b :: rest => (a, b) :: mk_elements (b :: rest)

/-- Modelled from the spec: the elements of the grid are the intervals
between consecutive nodes. -/
def grid_elements (p : SoilProfile) (dz : ℚ) : List (ℚ × ℚ) :=
  mk_elements (grid_nodes p dz)

theorem mk_elements_length : ∀ zs : List ℚ, zs ≠ [] →
    (mk_elements zs).length + 1 = zs.length
  | [], h => absurd rfl h
  | [_], _ => rfl
  | a :: b :: rest, _ => by
      show (mk_elements (b :: rest)).length + 1 + 1 = _
      rw [mk_elements_length (b :: rest) (by simp)]
      rfl

theorem mk_elements_mem : ∀ (zs : List ℚ) (a b : ℚ),
    (a, b) ∈ mk_elements zs → a ∈ zs ∧ b ∈ zs
  | [], a, b, h => absurd h (List.not_mem_nil _)
  | [_], a, b, h => absurd h (List.not_mem_nil _)
  | x :: y :: rest, a, b, h => by
      rcases List.mem_cons.mp h with heq | hmem
      · rw [show a = x from congrArg Prod.fst heq,
            show b = y from congrArg Prod.snd heq]
        exact ⟨by simp, by simp⟩
      · obtain ⟨ha, hb⟩ := mk_elements_mem (y :: rest) a b hmem
        exact ⟨List.mem_cons_of_mem _ ha, List.mem_cons_of_mem _ hb⟩

theorem mk_elements_ordered {zs : List ℚ} (hs : List.Chain' (· < ·) zs) :
    ∀ a b, (a, b) ∈ mk_elements zs → a < b := by
  induction zs with
  | nil => intro a b h; cases h
  | cons x rest ih =>
    intro a b h
    cases rest with
    | nil => cases h
    | cons y rest' =>
      rcases List.chain'_cons.mp hs with ⟨hxy, hrest⟩
      rcases List.mem_cons.mp h with heq | hmem
      · have h1 : a = x := congrArg Prod.fst heq
        have h2 : b = y := congrArg Prod.snd heq
        rw [h1, h2]
        exact hxy
      · exact ih hrest a b hmem

theorem mk_elements_separated {zs : List ℚ} (hs : List.Chain' (· < ·) zs) :
    ∀ a b, (a, b) ∈ mk_elements zs → ∀ x ∈ zs, x ≤ a ∨ b ≤ x := by
  induction zs with
  | nil => intro a b h; cases h
  | cons z rest ih =>
    intro a b h x hx
    cases rest with
    | nil => cases h
    | cons y rest' =>
      rcases List.chain'_cons.mp hs with ⟨hzy, hrest⟩
      have hpair : List.Pairwise (· < ·) (y :: rest') :=
        (List.chain'_iff_pairwise).mp hrest
      rcases List.mem_cons.mp h with heq | hmem
      · have h1 : a = z := congrArg Prod.fst heq
        have h2 : b = y := congrArg Prod.snd heq
        rcases List.mem_cons.mp hx with rfl | hxm
        · exact Or.inl (le_of_eq h1.symm)
        · right
          rw [h2]
          rcases List.mem_cons.mp hxm with rfl | hxm'
          · exact le_refl _
          · exact le_of_lt (List.rel_of_pairwise_cons hpair hxm')
      · rcases List.mem_cons.mp hx with rfl | hxm
        · left
          have ha : a ∈ y :: rest' := (mk_elements_mem _ a b hmem).1
          have : x < y := hzy
          rcases List.mem_cons.mp ha with rfl | ham
          · exact le_of_lt this
          · exact le_of_lt (lt_trans this (List.rel_of_pairwise_cons hpair ham))
        · exact ih hrest a b hmem x hxm

theorem grid_nodes_sorted (p : SoilProfile) (dz : ℚ) :
    List.Chain' (· < ·) (grid_nodes p dz) := by
  apply dedup_sorted_chain
  exact ((List.sorted_insertionSort _ _)).chain'

theorem grid_nodes_mem (p : SoilProfile) (dz : ℚ) (x : ℚ) :
    x ∈ grid_nodes p dz ↔ x ∈ grid_regular p dz ∨ x ∈ interfaces p := by
  rw [grid_nodes, dedup_sorted_mem]
  rw [(List.perm_insertionSort (· ≤ ·) _).mem_iff]
  exact List.mem_append

theorem profile_bottom_cons_cons (x r : Layer) (rest : List Layer) :
    profile_bottom (x :: r :: rest) = profile_bottom (r :: rest) := by
  rw [profile_bottom, profile_bottom, List.getLast?_cons_cons]

theorem layer_bounds {p : SoilProfile} (h : validProfile p) :
    ∀ l ∈ p, profile_top p ≤ l.top ∧ l.bottom ≤ profile_bottom p := by
  induction p with
  | nil => intro l hl; cases hl
  | cons x rest ih =>
    obtain ⟨hc, ho⟩ := h
    intro l hl
    constructor
    · show x.top ≤ l.top
      rcases List.mem_cons.mp hl with rfl | hmem
      · exact le_refl _
      · have h1 : x.top < x.bottom := ho x (by simp)
        have h2 : x.bottom ≤ l.top := tops_strict_mono hc ho l hmem
        linarith
    · cases rest with
      | nil =>
        rcases List.mem_cons.mp hl with rfl | hmem
        · rw [profile_bottom]
          simp
        · cases hmem
      | cons r rest' =>
        rw [profile_bottom_cons_cons]
        have hvrest : validProfile (r :: rest') :=
          ⟨hc.tail, fun z hz => ho z (by simp [hz])⟩
        rcases List.mem_cons.mp hl with rfl | hmem
        · have hadj : adjacent l r := (List.chain'_cons.mp hc).1
          have h1 : r.top ≤ r.top ∧ r.bottom ≤ profile_bottom (r :: rest') :=
            ih hvrest r (by simp)
          have h2 : r.top < r.bottom := ho r (by simp)
          have h3 : l.bottom = r.top := hadj
          linarith [h1.2]
        · exact (ih hvrest l hmem).2

theorem profile_top_lt_bottom {p : SoilProfile} (h : validProfile p)
    (hne : p ≠ []) : profile_top p < profile_bottom p := by
  cases p with
  | nil => cases hne rfl
  | cons x rest =>
    have h1 : x.top < x.bottom := h.2 x (by simp)
    have h2 := (layer_bounds h x (by simp)).2
    show x.top < profile_bottom (x :: rest)
    linarith

theorem interfaces_bounds {p : SoilProfile} (h : validProfile p) :
    ∀ x ∈ interfaces p, profile_top p ≤ x ∧ x ≤ profile_bottom p := by
  intro x hx
  rw [interfaces] at hx
  rcases List.mem_flatMap.mp hx with ⟨l, hl, hxl⟩
  have hb := layer_bounds h l hl
  have ho : l.top < l.bottom := h.2 l hl
  rcases List.mem_cons.mp hxl with rfl | hxl'
  · exact ⟨hb.1, by linarith [hb.2]⟩
  · rcases List.mem_cons.mp hxl' with rfl | hxl''
    · exact ⟨by linarith [hb.1], hb.2⟩
    · cases hxl''

theorem grid_regular_bounds {p : SoilProfile} {dz : ℚ} (hdz : 0 < dz)
    (hlt : profile_top p ≤ profile_bottom p) :
    ∀ x ∈ grid_regular p dz,
      profile_top p ≤ x ∧ x ≤ profile_bottom p := by
  intro x hx
  rw [grid_regular] at hx
  rcases List.mem_map.mp hx with ⟨k, hk, rfl⟩
  have hk' : k ≤ (⌊(profile_bottom p - profile_top p) / dz⌋).toNat := by
    have := List.mem_range.mp hk
    omega
  constructor
  · have : 0 ≤ (k : ℚ) * dz := mul_nonneg (by positivity) (le_of_lt hdz)
    linarith
  · have hfl : (0 : ℤ) ≤ ⌊(profile_bottom p - profile_top p) / dz⌋ := by
      apply Int.floor_nonneg.mpr
      apply div_nonneg (by linarith) (le_of_lt hdz)
    have hcast : ((k : ℤ) : ℚ) ≤ (profile_bottom p - profile_top p) / dz := by
      apply Int.le_floor.mp
      omega
    have hcast' : (k : ℚ) ≤ (profile_bottom p - profile_top p) / dz := by
      push_cast at hcast
      exact hcast
    have hmul : (k : ℚ) * dz ≤
        ((profile_bottom p - profile_top p) / dz) * dz :=
      mul_le_mul_of_nonneg_right hcast' (le_of_lt hdz)
    rw [div_mul_cancel₀ _ (ne_of_gt hdz)] at hmul
    linarith

theorem grid_nodes_bounds {p : SoilProfile} {dz : ℚ} (h : validProfile p)
    (hne : p ≠ []) (hdz : 0 < dz) :
    ∀ x ∈ grid_nodes p dz,
      profile_top p ≤ x ∧ x ≤ profile_bottom p := by
  intro x hx
  rcases (grid_nodes_mem p dz x).mp hx with hr | hi
  · exact grid_regular_bounds hdz
      (le_of_lt (profile_top_lt_bottom h hne)) x hr
  · exact interfaces_bounds h x hi

theorem exists_layer_cover {p : SoilProfile} (h : validProfile p) :
    ∀ z, profile_top p ≤ z → z < profile_bottom p →
      ∃ l ∈ p, l.top ≤ z ∧ z < l.bottom := by
  induction p with
  | nil =>
    intro z h1 h2
    rw [profile_top] at h1
    rw [profile_bottom] at h2
    simp at h2
    exact absurd (lt_of_le_of_lt h1 h2) (lt_irrefl 0)
  | cons x rest ih =>
    intro z h1 h2
    by_cases hz : z < x.bottom
    · exact ⟨x, by simp, h1, hz⟩
    · push_neg at hz
      cases rest with
      | nil =>
        exfalso
        rw [profile_bottom] at h2
        simp at h2
        linarith
      | cons r rest' =>
        obtain ⟨hc, ho⟩ := h
        have hvrest : validProfile (r :: rest') :=
          ⟨hc.tail, fun y hy => ho y (by simp [hy])⟩
        have hadj : adjacent x r := (List.chain'_cons.mp hc).1
        have h1' : profile_top (r :: rest') ≤ z := by
          show r.top ≤ z
          rw [← hadj]
          exact hz
        have h2' : z < profile_bottom (r :: rest') := by
          rw [profile_bottom_cons_cons] at h2
          exact h2
        obtain ⟨l, hl, hlz⟩ := ih hvrest z h1' h2'
        exact ⟨l, List.mem_cons_of_mem _ hl, hlz⟩

theorem interface_mem_nodes {p : SoilProfile} (dz : ℚ) :
    ∀ l ∈ p, l.top ∈ grid_nodes p dz ∧ l.bottom ∈ grid_nodes p dz := by
  intro l hl
  constructor
  · rw [grid_nodes_mem]
    right
    rw [interfaces]
    exact List.mem_flatMap.mpr ⟨l, hl, by simp⟩
  · rw [grid_nodes_mem]
    right
    rw [interfaces]
    exact List.mem_flatMap.mpr ⟨l, hl, by simp⟩

theorem grid_nodes_nodup (p : SoilProfile) (dz : ℚ) :
    (grid_nodes p dz).Nodup := by
  have h := grid_nodes_sorted p dz
  have hp : (grid_nodes p dz).Pairwise (· < ·) :=
    List.chain'_iff_pairwise.mp h
  exact hp.imp ne_of_lt

/-- The 0–10 m profile with one interior boundary at 4.3 m used in the
spec's grid-node example. -/
def grid_example : SoilProfile :=
  [⟨0, 43/10, [("Soil type", ParamVal.str "SAND")]⟩,
   ⟨43/10, 10, [("Soil type", ParamVal.str "CLAY")]⟩]

/-- C6: the grid nodes are exactly the regular points unioned with the
layer interfaces, deduplicated and sorted, so node depths strictly
increase, every layer boundary appears exactly once, and the element
count is the node count minus one; for the 0–10 m profile with a boundary
at 4.3 m and spacing 1 the nodes are
0,1,2,3,4,4.3,5,6,7,8,9,10 — twelve nodes including 4.3. -/
theorem C6_grid_nodes (p : SoilProfile) (dz : ℚ) (h : validProfile p)
    (hne : p ≠ []) (hdz : 0 < dz) :
    List.Chain' (· < ·) (grid_nodes p dz) ∧
    (∀ x, x ∈ grid_nodes p dz ↔
      x ∈ grid_regular p dz ∨ x ∈ interfaces p) ∧
    (∀ l ∈ p, l.top ∈ grid_nodes p dz ∧ l.bottom ∈ grid_nodes p dz ∧
      (grid_nodes p dz).count l.top = 1 ∧
      (grid_nodes p dz).count l.bottom = 1) ∧
    (grid_elements p dz).length + 1 = (grid_nodes p dz).length ∧
    grid_nodes grid_example 1 =
      [0, 1, 2, 3, 4, 43/10, 5, 6, 7, 8, 9, 10] ∧
    (grid_nodes grid_example 1).length = 12 := by
  have hnodup := grid_nodes_nodup p dz
  have hnonempty : grid_nodes p dz ≠ [] := by
    cases p with
    | nil => cases hne rfl
    | cons l rest =>
      exact List.ne_nil_of_mem (interface_mem_nodes dz l (by simp)).1
  have hexample : grid_nodes grid_example 1 =
      [0, 1, 2, 3, 4, 43/10, 5, 6, 7, 8, 9, 10] := by
    norm_num [grid_nodes, grid_regular, interfaces, profile_top,
      profile_bottom, List.range_succ, List.flatMap, dedup_sorted,
      List.insertionSort, List.orderedInsert, grid_example]
    simp only [Int.reduceToNat, Nat.cast_ofNat]
    norm_num [dedup_sorted, List.orderedInsert]
  refine ⟨grid_nodes_sorted p dz, grid_nodes_mem p dz, ?_, ?_, hexample, ?_⟩
  · intro l hl
    obtain ⟨h1, h2⟩ := interface_mem_nodes dz l hl
    exact ⟨h1, h2, List.count_eq_one_of_mem hnodup h1,
      List.count_eq_one_of_mem hnodup h2⟩
  · exact mk_elements_length _ hnonempty
  · rw [hexample]
    rfl

/-- C6 witness: instantiation on the tutorial profile at unit spacing. -/
theorem C6_witness :
    List.Chain' (· < ·) (grid_nodes profile_2 1) ∧
    (∀ x, x ∈ grid_nodes profile_2 1 ↔
      x ∈ grid_regular profile_2 1 ∨ x ∈ interfaces profile_2) ∧
    (∀ l ∈ profile_2, l.top ∈ grid_nodes profile_2 1 ∧
      l.bottom ∈ grid_nodes profile_2 1 ∧
      (grid_nodes profile_2 1).count l.top = 1 ∧
      (grid_nodes profile_2 1).count l.bottom = 1) ∧
    (grid_elements profile_2 1).length + 1 =
      (grid_nodes profile_2 1).length ∧
    grid_nodes grid_example 1 =
      [0, 1, 2, 3, 4, 43/10, 5, 6, 7, 8, 9, 10] ∧
    (grid_nodes grid_example 1).length = 12 :=
  C6_grid_nodes profile_2 1 (by decide) (by decide) (by decide)

/-- Modelled from the spec: the layer containing a depth, resolving an
exact boundary to the layer below (the layer for which the boundary is
the top); the profile bottom resolves to the last layer. -/
def layer_at (p : SoilProfile) (z : ℚ) : Option Layer :=
  match p.find? (fun l => decide (l.top ≤ z) && decide (z < l.bottom)) with
  | some l => some l
  | none =>
    match p.getLast? with
    | some l => if z = l.bottom then some l else none
    | none => none

/-- Parameter value carried by a grid element inside layer `l`: a linear
variation is cut to its own sub-segment by interpolation at the element
ends; constants and categoricals are copied. -/
def elem_val (l : Layer) (a b : ℚ) : ParamVal → ParamVal
  | ParamVal.lin f t => ParamVal.lin (interp_at l f t a) (interp_at l f t b)
  | v => v

/-- Parameters of the grid element `[a, b]`, taken from the layer
containing it. -/
def elem_params (p : SoilProfile) (a b : ℚ) : List (String × ParamVal) :=
  match layer_at p a with
  | some l => l.params.map (fun q => (q.1, elem_val l a b q.2))
  | none => []

/-- Modelled from the spec: the `elements` view of a `CalculationGrid` is
itself a `SoilProfile` whose layers are the intervals between consecutive
nodes, carrying the containing layer's parameter values. -/
def elements_profile (p : SoilProfile) (dz : ℚ) : SoilProfile :=
  (grid_elements p dz).map (fun ab => ⟨ab.1, ab.2, elem_params p ab.1 ab.2⟩)

theorem layer_at_of_lt {p : SoilProfile} {z : ℚ} (h : validProfile p)
    (h1 : profile_top p ≤ z) (h2 : z < profile_bottom p) :
    ∃ l, layer_at p z = some l ∧ l ∈ p ∧ l.top ≤ z ∧ z < l.bottom := by
  obtain ⟨l₀, hl₀, hcov⟩ := exists_layer_cover h z h1 h2
  have hex : ∃ l ∈ p,
      (decide (l.top ≤ z) && decide (z < l.bottom)) = true := by
    exact ⟨l₀, hl₀, by simp [hcov.1, hcov.2]⟩
  have hsome : (p.find?
      (fun l => decide (l.top ≤ z) && decide (z < l.bottom))).isSome := by
    rw [List.find?_isSome]
    exact hex
  obtain ⟨l, hfind⟩ := Option.isSome_iff_exists.mp hsome
  have hpred := List.find?_some hfind
  simp only [Bool.and_eq_true, decide_eq_true_eq] at hpred
  refine ⟨l, ?_, List.mem_of_find?_eq_some hfind, hpred.1, hpred.2⟩
  rw [layer_at, hfind]

theorem find?_none_at_bottom {p : SoilProfile} (h : validProfile p) :
    p.find? (fun l => decide (l.top ≤ profile_bottom p) &&
      decide (profile_bottom p < l.bottom)) = none := by
  rw [List.find?_eq_none]
  intro l hl
  have hb := (layer_bounds h l hl).2
  simp only [Bool.and_eq_true, decide_eq_true_eq, not_and]
  intro _ hlt
  linarith

theorem layer_at_bottom {p : SoilProfile} (h : validProfile p)
    {lst : Layer} (hlast : p.getLast? = some lst) :
    layer_at p (profile_bottom p) = some lst ∧
    profile_bottom p = lst.bottom := by
  have hpb : profile_bottom p = lst.bottom := by
    rw [profile_bottom, hlast]
    rfl
  constructor
  · rw [layer_at, find?_none_at_bottom h, hlast]
    show (if profile_bottom p = lst.bottom then some lst else none) =
      some lst
    rw [if_pos hpb]
  · exact hpb

theorem elem_getConst {p : SoilProfile} {a b : ℚ} {l : Layer}
    (hl : layer_at p a = some l) (name : String) :
    getConst ⟨a, b, elem_params p a b⟩ name = getConst l name := by
  have hfind_eq : (elem_params p a b).find? (fun q => decide (q.1 = name)) =
      (l.params.find? (fun q => decide (q.1 = name))).map
        (fun q => (q.1, elem_val l a b q.2)) := by
    rw [elem_params, hl, List.find?_map]
    rfl
  have hgp : getParam ⟨a, b, elem_params p a b⟩ name =
      (getParam l name).map (elem_val l a b) := by
    rw [getParam, getParam]
    show ((elem_params p a b).find? _).map Prod.snd = _
    rw [hfind_eq]
    cases l.params.find? (fun q => decide (q.1 = name)) <;> rfl
  rw [getConst, getConst, hgp]
  cases hgp2 : getParam l name with
  | none => rfl
  | some v => cases v <;> rfl

theorem mk_elements_chain (zs : List ℚ) :
    List.Chain' (fun ab cd : ℚ × ℚ => ab.2 = cd.1) (mk_elements zs) := by
  induction zs with
  | nil => exact List.chain'_nil
  | cons a rest ih =>
    cases rest with
    | nil => exact List.chain'_nil
    | cons b rest' =>
      show List.Chain' _ ((a, b) :: mk_elements (b :: rest'))
      refine List.chain'_cons'.mpr ⟨?_, ih⟩
      intro cd hcd
      cases rest' with
      | nil => cases hcd
      | cons c rest'' =>
        have hcd2 : ((b, c) : ℚ × ℚ) = cd :=
          Option.some.inj (Option.mem_def.mp hcd)
        rw [← hcd2]

theorem depth_integration_total (param out : String) :
    ∀ (p : SoilProfile), (∀ l ∈ p, ∃ v, getConst l param = some v) →
      ∀ acc, ∃ q, depth_integration_from param out acc p = .ok q := by
  intro p
  induction p with
  | nil => intro _ acc; exact ⟨[], rfl⟩
  | cons l rest ih =>
    intro hall acc
    obtain ⟨v, hv⟩ := hall l (by simp)
    obtain ⟨q, hq⟩ := ih (fun x hx => hall x (by simp [hx]))
      (acc + v * (l.bottom - l.top))
    refine ⟨⟨l.top, l.bottom,
      (out, ParamVal.lin acc (acc + v * (l.bottom - l.top))) ::
        l.params⟩ :: q, ?_⟩
    rw [depth_integration_from, hv]
    show (match depth_integration_from param out
        (acc + v * (l.bottom - l.top)) rest with
      | Except.error e => Except.error e
      | Except.ok rs => Except.ok ((⟨l.top, l.bottom,
          (out, ParamVal.lin acc (acc + v * (l.bottom - l.top))) ::
            l.params⟩ : Layer) :: rs)) =
      Except.ok ((⟨l.top, l.bottom,
          (out, ParamVal.lin acc (acc + v * (l.bottom - l.top))) ::
            l.params⟩ : Layer) :: q)
    rw [hq]

/-- Every grid element lies inside a single layer of the source profile:
the node at its top selects a layer, and the element's bottom cannot
pass that layer's bottom because every interface is itself a node. -/
theorem element_layer {p : SoilProfile} {dz : ℚ} (h : validProfile p)
    (hne : p ≠ []) (hdz : 0 < dz) :
    ∀ a b, (a, b) ∈ grid_elements p dz →
      ∃ l, l ∈ p ∧ layer_at p a = some l ∧ l.top ≤ a ∧ b ≤ l.bottom ∧
        a < l.bottom := by
  have hsorted := grid_nodes_sorted p dz
  intro a b hab
  obtain ⟨ha, hb⟩ := mk_elements_mem _ a b hab
  have haval := grid_nodes_bounds h hne hdz a ha
  have hbval := grid_nodes_bounds h hne hdz b hb
  have hab' : a < b := mk_elements_ordered hsorted a b hab
  have halt : a < profile_bottom p := lt_of_lt_of_le hab' hbval.2
  obtain ⟨l, hlat, hlmem, hlta, halb⟩ :=
    layer_at_of_lt h haval.1 halt
  have hbot_node : l.bottom ∈ grid_nodes p dz :=
    (interface_mem_nodes dz l hlmem).2
  have hsep := mk_elements_separated hsorted a b hab l.bottom hbot_node
  have hble : b ≤ l.bottom := by
    rcases hsep with h' | h'
    · linarith
    · exact h'
  exact ⟨l, hlmem, hlat, hlta, hble, halb⟩

/-- C10: the elements view of the grid is itself a valid layered profile
(contiguous, with positive-thickness layers), every element lies inside a
single layer of the source profile (no element straddles an interface),
each element carries the containing layer's constant parameter values,
and profile operations such as `depth_integration` run on it whenever
the integrated parameter is present in every source layer. -/
theorem C10_elements_profile (p : SoilProfile) (dz : ℚ)
    (h : validProfile p) (hne : p ≠ []) (hdz : 0 < dz)
    (param out : String) (start : ℚ) :
    validProfile (elements_profile p dz) ∧
    (∀ e ∈ elements_profile p dz, ∃ l, l ∈ p ∧ layer_at p e.top = some l ∧
      l.top ≤ e.top ∧ e.bottom ≤ l.bottom ∧
      ∀ name, getConst e name = getConst l name) ∧
    ((∀ l ∈ p, ∃ v, getConst l param = some v) →
      ∃ q, depth_integration (elements_profile p dz) param out start =
        .ok q) := by
  have hsorted := grid_nodes_sorted p dz
  have hwithin := element_layer h hne hdz
  refine ⟨⟨?_, ?_⟩, ?_, ?_⟩
  · show List.Chain' adjacent ((grid_elements p dz).map _)
    rw [List.chain'_map]
    refine (mk_elements_chain (grid_nodes p dz)).imp ?_
    intro ab cd hlink
    exact hlink
  · intro e he
    rcases List.mem_map.mp he with ⟨ab, hab, rfl⟩
    exact mk_elements_ordered hsorted ab.1 ab.2 (by simpa using hab)
  · intro e he
    rcases List.mem_map.mp he with ⟨ab, hab, rfl⟩
    obtain ⟨l, hlmem, hlat, h1, h2, h3⟩ := hwithin ab.1 ab.2 (by simpa using hab)
    exact ⟨l, hlmem, hlat, h1, h2, fun name => elem_getConst hlat name⟩
  · intro hall
    apply depth_integration_total
    intro e he
    rcases List.mem_map.mp he with ⟨ab, hab, rfl⟩
    obtain ⟨l, hlmem, hlat, _, _, _⟩ := hwithin ab.1 ab.2 (by simpa using hab)
    obtain ⟨v, hv⟩ := hall l hlmem
    exact ⟨v, by rw [elem_getConst hlat param, hv]⟩

/-- C10 witness: the elements view of the tutorial profile. -/
theorem C10_witness :
    validProfile (elements_profile profile_2 1) ∧
    (∀ e ∈ elements_profile profile_2 1, ∃ l, l ∈ profile_2 ∧
      layer_at profile_2 e.top = some l ∧
      l.top ≤ e.top ∧ e.bottom ≤ l.bottom ∧
      ∀ name, getConst e name = getConst l name) ∧
    ((∀ l ∈ profile_2, ∃ v,
        getConst l "Subm unit weight [kN/m3]" = some v) →
      ∃ q, depth_integration (elements_profile profile_2 1)
        "Subm unit weight [kN/m3]" "Vertical effective stress [kPa]" 0 =
          .ok q) :=
  C10_elements_profile profile_2 1 (by decide) (by decide) (by decide)
    "Subm unit weight [kN/m3]" "Vertical effective stress [kPa]" 0

/-- Modelled from the integration notebook: the value of a constant
parameter at a grid node, taking the containing layer's value; a node on
a layer interface "will always take the value of the underlying layer". -/
def node_value (p : SoilProfile) (name : String) (z : ℚ) : ℚ :=
  match layer_at p z with
  | some l => (getConst l name).getD 0
  | none => 0

/-- Modelled from `scipy.integrate.cumulative_trapezoid` with an initial
value: running trapezoid-rule integral of the nodal values over the node
depths. -/
def trap_values (vals : ℚ → ℚ) : ℚ → List ℚ → List ℚ
  | _, [] => []
  | acc, [_] => [acc]
  | acc, z₁ :: z₂ :: zs =>
    acc :: trap_values vals
      (acc + (z₂ - z₁) * (vals z₁ + vals z₂) / 2) (z₂ :: zs)

/-- Element-wise integration over the grid: each element between
consecutive nodes contributes its constant value — the value of the layer
containing the element, which is the node value at the element's top —
times its thickness, as `depth_integration` does on the elements view. -/
def elem_values (vals : ℚ → ℚ) : ℚ → List ℚ → List ℚ
  | _, [] => []
  | acc, [_] => [acc]
  | acc, z₁ :: z₂ :: zs =>
    acc :: elem_values vals (acc + (z₂ - z₁) * vals z₁) (z₂ :: zs)

/-- Explicit output of `depth_integration_from` when the integrated value
of every layer is known. -/
def integ_out (param out : String) (vf : Layer → ℚ) :
    ℚ → List Layer → List Layer
  | _, [] => []
  | acc, l :: rest =>
    ⟨l.top, l.bottom,
      (out, ParamVal.lin acc (acc + vf l * (l.bottom - l.top))) ::
        l.params⟩ ::
      integ_out param out vf (acc + vf l * (l.bottom - l.top)) rest

theorem depth_integration_integ_out (param out : String) (vf : Layer → ℚ) :
    ∀ (es : List Layer), (∀ l ∈ es, getConst l param = some (vf l)) →
      ∀ acc, depth_integration_from param out acc es =
        .ok (integ_out param out vf acc es) := by
  intro es
  induction es with
  | nil => intro _ acc; rfl
  | cons l rest ih =>
    intro hv acc
    rw [depth_integration_from, hv l (by simp)]
    show (match depth_integration_from param out
        (acc + vf l * (l.bottom - l.top)) rest with
      | Except.error e => Except.error e
      | Except.ok rs => Except.ok ((⟨l.top, l.bottom,
          (out, ParamVal.lin acc (acc + vf l * (l.bottom - l.top))) ::
            l.params⟩ : Layer) :: rs)) =
      Except.ok (integ_out param out vf acc (l :: rest))
    rw [ih (fun x hx => hv x (by simp [hx])) (acc + vf l * (l.bottom - l.top))]
    rfl

theorem trap_values_eq_elem_values (vals : ℚ → ℚ) (c : ℚ) :
    ∀ (zs : List ℚ), (∀ z ∈ zs, vals z = c) → ∀ acc,
      trap_values vals acc zs = elem_values vals acc zs
  | [], _, _ => rfl
  | [z], _, _ => rfl
  | z₁ :: z₂ :: zs, hv, acc => by
      rw [trap_values, elem_values]
      have h1 : vals z₁ = c := hv z₁ (by simp)
      have h2 : vals z₂ = c := hv z₂ (by simp)
      congr 1
      rw [trap_values_eq_elem_values vals c (z₂ :: zs)
        (fun z hz => hv z (by simp [hz]))]
      congr 1
      rw [h1, h2]
      ring

theorem node_value_const {p : SoilProfile} {name : String} {c : ℚ}
    (h : validProfile p) (hne : p ≠ [])
    (huni : ∀ l ∈ p, getConst l name = some c) {dz : ℚ} (hdz : 0 < dz) :
    ∀ z ∈ grid_nodes p dz, node_value p name z = c := by
  intro z hz
  have hb := grid_nodes_bounds h hne hdz z hz
  rcases lt_or_eq_of_le hb.2 with hlt | heq
  · obtain ⟨l, hlat, hlmem, _, _⟩ := layer_at_of_lt h hb.1 hlt
    simp only [node_value, hlat, huni l hlmem]
    rfl
  · have hlast : ∃ lst, p.getLast? = some lst := by
      cases hpl : p.getLast? with
      | none => exact absurd (List.getLast?_eq_none_iff.mp hpl) hne
      | some lst => exact ⟨lst, rfl⟩
    obtain ⟨lst, hpl⟩ := hlast
    obtain ⟨hlat, hpb⟩ := layer_at_bottom h hpl
    have hmem : lst ∈ p := by
      obtain ⟨hh, heq2⟩ :=
        List.mem_getLast?_eq_getLast (Option.mem_def.mpr hpl)
      rw [heq2]
      exact List.getLast_mem hh
    simp only [node_value, heq, hlat, huni lst hmem]
    rfl

theorem getConst_single (top bottom v : ℚ) (name : String) :
    getConst ⟨top, bottom, [(name, ParamVal.num v)]⟩ name = some v := by
  simp [getConst, getParam, List.find?]

/-- A two-layer profile whose unit weight jumps across the interface at
1 m: 2 above, 4 below. -/
def jump_profile : SoilProfile :=
  [⟨0, 1, [("Effective unit weight [kN/m3]", ParamVal.num 2)]⟩,
   ⟨1, 2, [("Effective unit weight [kN/m3]", ParamVal.num 4)]⟩]

theorem jump_nodes : grid_nodes jump_profile 1 = [0, 1, 2] := by
  norm_num [grid_nodes, grid_regular, interfaces, profile_top,
    profile_bottom, List.range_succ, List.flatMap, dedup_sorted,
    List.insertionSort, List.orderedInsert, jump_profile]
  simp only [Int.reduceToNat, Nat.cast_ofNat]
  norm_num [dedup_sorted, List.orderedInsert]

theorem jump_value_0 :
    node_value jump_profile "Effective unit weight [kN/m3]" 0 = 2 := by
  norm_num [node_value, layer_at, jump_profile, List.find?, getConst,
    getParam]

theorem jump_value_1 :
    node_value jump_profile "Effective unit weight [kN/m3]" 1 = 4 := by
  norm_num [node_value, layer_at, jump_profile, List.find?, getConst,
    getParam]

theorem jump_value_2 :
    node_value jump_profile "Effective unit weight [kN/m3]" 2 = 4 := by
  norm_num [node_value, layer_at, jump_profile, List.find?, getConst,
    getParam]

theorem jump_elements : elements_profile jump_profile 1 =
    [⟨0, 1, [("Effective unit weight [kN/m3]", ParamVal.num 2)]⟩,
     ⟨1, 2, [("Effective unit weight [kN/m3]", ParamVal.num 4)]⟩] := by
  rw [elements_profile, grid_elements, jump_nodes]
  norm_num [mk_elements, elem_params, layer_at, jump_profile,
    List.find?, elem_val]

/-- C9: the claim is false on the recorded semantics.  For the two-layer
profile with unit weight 2 over 4 and unit spacing, the node-based
cumulative trapezoid gives 3 at the shared depth 1 m (the interface node
carries the underlying layer's value 4, so the last trapezoid of the
upper layer averages 2 and 4), while the element-wise depth integration
gives 2 there; 3 ≠ 2. -/
theorem C9_counterexample :
    validProfile jump_profile ∧
    grid_nodes jump_profile 1 = [0, 1, 2] ∧
    trap_values (node_value jump_profile "Effective unit weight [kN/m3]")
      0 (grid_nodes jump_profile 1) = [0, 3, 7] ∧
    (∃ q, depth_integration (elements_profile jump_profile 1)
        "Effective unit weight [kN/m3]"
        "Vertical effective stress [kPa]" 0 = .ok q ∧
      lookup_lin q "Vertical effective stress [kPa]" 1 = .ok 2) ∧
    ¬ ((3 : ℚ) = 2) := by
  refine ⟨by decide, jump_nodes, ?_, ?_, by decide⟩
  · rw [jump_nodes]
    norm_num [trap_values, jump_value_0, jump_value_1, jump_value_2]
  · have hint : depth_integration (elements_profile jump_profile 1)
        "Effective unit weight [kN/m3]"
        "Vertical effective stress [kPa]" 0 =
      .ok [⟨0, 1, [("Vertical effective stress [kPa]", ParamVal.lin 0 2),
              ("Effective unit weight [kN/m3]", ParamVal.num 2)]⟩,
           ⟨1, 2, [("Vertical effective stress [kPa]", ParamVal.lin 2 6),
              ("Effective unit weight [kN/m3]", ParamVal.num 4)]⟩] := by
      rw [depth_integration, jump_elements]
      norm_num [depth_integration_from, getConst_single]
    refine ⟨_, hint, ?_⟩
    norm_num [lookup_lin, getLin, getParam, List.find?, interp_at]

/-- C9 (amended): when the parameter carries one value `c` across the
whole profile — in particular equal values on both sides of every layer
interface — the node-based cumulative trapezoid and the element-wise
depth integration agree at every shared depth; moreover the element-wise
integration is exactly the accumulation of element value times element
thickness produced by `depth_integration` on the elements view.  When the
value jumps at an interface the two computations differ below it, as the
counterexample shows. -/
theorem C9_trapezoid_vs_elements (p : SoilProfile) (name out : String)
    (c start dz : ℚ) (h : validProfile p) (hne : p ≠ [])
    (hdz : 0 < dz) (huni : ∀ l ∈ p, getConst l name = some c) :
    trap_values (node_value p name) start (grid_nodes p dz) =
      elem_values (node_value p name) start (grid_nodes p dz) ∧
    depth_integration (elements_profile p dz) name out start =
      .ok (integ_out name out (fun l => node_value p name l.top) start
        (elements_profile p dz)) := by
  constructor
  · exact trap_values_eq_elem_values _ c _
      (node_value_const h hne huni hdz) start
  · apply depth_integration_integ_out
    intro e he
    rcases List.mem_map.mp he with ⟨ab, hab, rfl⟩
    obtain ⟨l, hlmem, hlat, _, _, _⟩ :=
      element_layer h hne hdz ab.1 ab.2 (by simpa using hab)
    rw [elem_getConst hlat name, huni l hlmem]
    simp only [node_value, hlat, huni l hlmem]
    rfl

/-- A two-layer profile with the same unit weight 9 in both layers. -/
def uniform_profile : SoilProfile :=
  [⟨0, 1, [("Effective unit weight [kN/m3]", ParamVal.num 9)]⟩,
   ⟨1, 2, [("Effective unit weight [kN/m3]", ParamVal.num 9)]⟩]

/-- C9 witness: the amended equivalence on a uniform two-layer profile. -/
theorem C9_witness :
    trap_values
        (node_value uniform_profile "Effective unit weight [kN/m3]") 0
        (grid_nodes uniform_profile 1) =
      elem_values
        (node_value uniform_profile "Effective unit weight [kN/m3]") 0
        (grid_nodes uniform_profile 1) ∧
    depth_integration (elements_profile uniform_profile 1)
        "Effective unit weight [kN/m3]"
        "Vertical effective stress [kPa]" 0 =
      .ok (integ_out "Effective unit weight [kN/m3]"
        "Vertical effective stress [kPa]"
        (fun l => node_value uniform_profile
          "Effective unit weight [kN/m3]" l.top) 0
        (elements_profile uniform_profile 1)) :=
  C9_trapezoid_vs_elements uniform_profile
    "Effective unit weight [kN/m3]" "Vertical effective stress [kPa]"
    9 0 1 (by decide) (by decide) (by decide) (by decide)

/-- One layer of the shaft-resistance layering table: depth range, the
averaged unit shaft friction derived for the layer, and the applicable
`alpha_s` factor. -/
structure ShaftLayer where
  top : ℚ
  bottom : ℚ
  qs : ℚ
  alpha_s : ℚ
deriving DecidableEq

/-- Modelled from the spec: the shaft capacity accumulates
`alpha_s · unit_shaft_friction · layer_thickness · circumference` over the
layers above the pile penetration, the deepest contributing layer being
truncated at the penetration depth. -/
def shaft_capacity (pen circ : ℚ) : List ShaftLayer → ℚ
  | [] => 0
  | l :: rest =>
    (if l.top < pen then
      l.alpha_s * l.qs * (min l.bottom pen - l.top) * circ
    else 0) + shaft_capacity pen circ rest

/-- Modelled from the spec and the pile tutorial: `calculate_pile_resistance`
returns the base capacity `alpha_b·beta·lambda·base_area` times the unit
base resistance interpolated at the pile penetration, the shaft capacity
accumulated over the layering, and the total as their sum
(`Rb`, `Rs`, `Rc`). -/
def calculate_pile_resistance (layering : List ShaftLayer)
    (depth_qb qb : List ℚ)
    (pen base_area circ alpha_b beta_base lambda_base : ℚ) : ℚ × ℚ × ℚ :=
  (alpha_b * beta_base * lambda_base *
      interp_pairs (depth_qb.zip qb) pen * base_area,
   shaft_capacity pen circ layering,
   alpha_b * beta_base * lambda_base *
      interp_pairs (depth_qb.zip qb) pen * base_area +
     shaft_capacity pen circ layering)

theorem shaft_capacity_eq_sum (pen circ : ℚ) :
    ∀ layering : List ShaftLayer,
      shaft_capacity pen circ layering =
        ((layering.filter (fun l => decide (l.top < pen))).map
          (fun l => l.alpha_s * l.qs * (min l.bottom pen - l.top) *
            circ)).sum := by
  intro layering
  induction layering with
  | nil => rfl
  | cons l rest ih =>
    rw [shaft_capacity, ih]
    by_cases hl : l.top < pen
    · rw [if_pos hl, List.filter_cons_of_pos (by simp [hl]),
        List.map_cons, List.sum_cons]
    · rw [if_neg hl, List.filter_cons_of_neg (by simp [hl]), zero_add]

/-- C8: the pile resistance triple consists of the base capacity — the
unit base resistance interpolated at the pile penetration times
`alpha_b·beta·lambda·base_area` — the shaft capacity — the sum over the
layers above the penetration of
`alpha_s·unit_shaft_friction·thickness·circumference`, with the deepest
layer truncated at the penetration — and the total capacity equal to
base plus shaft; layers at or below the penetration contribute nothing,
and an untruncated contributing layer contributes its full thickness. -/
theorem C8_pile_resistance (layering : List ShaftLayer)
    (depth_qb qb : List ℚ)
    (pen base_area circ alpha_b beta_base lambda_base : ℚ) :
    calculate_pile_resistance layering depth_qb qb pen base_area circ
        alpha_b beta_base lambda_base =
      (alpha_b * beta_base * lambda_base *
          interp_pairs (depth_qb.zip qb) pen * base_area,
       ((layering.filter (fun l => decide (l.top < pen))).map
          (fun l => l.alpha_s * l.qs * (min l.bottom pen - l.top) *
            circ)).sum,
       alpha_b * beta_base * lambda_base *
          interp_pairs (depth_qb.zip qb) pen * base_area +
         ((layering.filter (fun l => decide (l.top < pen))).map
            (fun l => l.alpha_s * l.qs * (min l.bottom pen - l.top) *
              circ)).sum) ∧
    (∀ l ∈ layering, l.bottom ≤ pen →
      l.alpha_s * l.qs * (min l.bottom pen - l.top) * circ =
        l.alpha_s * l.qs * (l.bottom - l.top) * circ) ∧
    (∀ l ∈ layering, pen ≤ l.top →
      l ∉ layering.filter (fun l => decide (l.top < pen))) := by
  refine ⟨?_, ?_, ?_⟩
  · rw [calculate_pile_resistance, shaft_capacity_eq_sum]
  · intro l _ hl
    rw [min_eq_left hl]
  · intro l _ hl hmem
    have := List.of_mem_filter hmem
    simp only [decide_eq_true_eq] at this
    linarith

/-- C8 witness: instantiation on a two-layer shaft table with a
penetration inside the second layer. -/
theorem C8_witness :
    calculate_pile_resistance
        [⟨0, 5, 2, 1⟩, ⟨5, 17, 3, 1⟩] [0, 20] [0, 10] 12 1 2 1 1 1 =
      (1 * 1 * 1 * interp_pairs (List.zip [0, 20] [0, 10]) 12 * 1,
       ((([⟨0, 5, 2, 1⟩, ⟨5, 17, 3, 1⟩] : List ShaftLayer).filter
          (fun l => decide (l.top < 12))).map
          (fun l => l.alpha_s * l.qs * (min l.bottom 12 - l.top) *
            2)).sum,
       1 * 1 * 1 * interp_pairs (List.zip [0, 20] [0, 10]) 12 * 1 +
         ((([⟨0, 5, 2, 1⟩, ⟨5, 17, 3, 1⟩] : List ShaftLayer).filter
            (fun l => decide (l.top < 12))).map
            (fun l => l.alpha_s * l.qs * (min l.bottom 12 - l.top) *
              2)).sum) ∧
    (∀ l ∈ ([⟨0, 5, 2, 1⟩, ⟨5, 17, 3, 1⟩] : List ShaftLayer),
      l.bottom ≤ 12 →
      l.alpha_s * l.qs * (min l.bottom 12 - l.top) * 2 =
        l.alpha_s * l.qs * (l.bottom - l.top) * 2) ∧
    (∀ l ∈ ([⟨0, 5, 2, 1⟩, ⟨5, 17, 3, 1⟩] : List ShaftLayer), 12 ≤ l.top →
      l ∉ ([⟨0, 5, 2, 1⟩, ⟨5, 17, 3, 1⟩] : List ShaftLayer).filter
        (fun l => decide (l.top < 12))) :=
  C8_pile_resistance [⟨0, 5, 2, 1⟩, ⟨5, 17, 3, 1⟩] [0, 20] [0, 10]
    12 1 2 1 1 1

/-- Modelled from the spec and the De Beer webinar notebook: one sample
of the resampled trace with the quantities the four-step correction reads
at its depth — cone resistance, friction angle of the soil type,
overburden, unit weight and the two critical-depth constants of the soil
type. -/
structure DeBeerSample where
  qc : ℝ
  phi : ℝ
  p0 : ℝ
  gamma : ℝ
  hcrit : ℝ
  hcrit' : ℝ

/-- Modelled from the spec, Step 1 (surface correction):
`q_p1 = qc / exp(2·(β_c − β_p)·tan φ)`. -/
noncomputable def qp1 (betac betap : ℝ) (s : DeBeerSample) : ℝ :=
  s.qc / Real.exp (2 * (betac - betap) * Real.tan s.phi)

/-- Modelled from the spec, Step 2 ratio:
`A = (1 + γ·hcrit'/(2·p0)) / (1 + γ·hcrit/(2·p0))`. -/
noncomputable def stress_ratio (s : DeBeerSample) : ℝ :=
  (1 + s.gamma * s.hcrit' / (2 * s.p0)) /
    (1 + s.gamma * s.hcrit / (2 * s.p0))

/-- Modelled from the spec, Step 2 (stress-level correction):
`A·q_p1` clamped not to exceed the raw `qc`. -/
noncomputable def qp2 (betac betap : ℝ) (s : DeBeerSample) : ℝ :=
  min (stress_ratio s * qp1 betac betap s) s.qc

/-- Modelled from the spec, Step 3 recurrence (downward correction):
`q_{j+1} = q_j + (A·q_p1[j+1] − q_j)·(d/D)`, clamped not to exceed
`q_p1[j+1]`. -/
noncomputable def step3_go (betac betap dD : ℝ) : ℝ → List DeBeerSample → List ℝ
  | _, [] => []
  | prev, s :: rest =>
    min (prev + (stress_ratio s * qp1 betac betap s - prev) * dD)
        (qp1 betac betap s) ::
      step3_go betac betap dD
        (min (prev + (stress_ratio s * qp1 betac betap s - prev) * dD)
          (qp1 betac betap s)) rest

/-- Modelled from the spec, Step 3 (downward correction), iterating from
shallow to deep starting from the Step-2 value of the first sample. -/
noncomputable def step3 (betac betap dD : ℝ) : List DeBeerSample → List ℝ
  | [] => []
  | s :: rest =>
    qp2 betac betap s :: step3_go betac betap dD (qp2 betac betap s) rest

/-- Modelled from the spec, Step 4 recurrence (upward correction): the
same smoothing applied to the Step-3 output, clamped not to exceed the
Step-3 value at each depth. -/
noncomputable def step4_go (dD : ℝ) : ℝ → List ℝ → List ℝ
  | _, [] => []
  | prev, v :: rest =>
    min (prev + (v - prev) * dD) v ::
      step4_go dD (min (prev + (v - prev) * dD) v) rest

/-- Modelled from the spec, Step 4 (upward correction), iterating from
the deepest sample upward starting from the Step-3 value at the tip. -/
noncomputable def step4 (dD : ℝ) (l : List ℝ) : List ℝ :=
  match l.reverse with
  | [] => []
  | v :: rest => (v :: step4_go dD v rest).reverse

/-- Modelled from the spec: the final corrected unit base resistance is
the Step-4 output of the four-step chain; `dD` is the sample spacing over
the pile diameter. -/
noncomputable def qb_profile (betac betap dD : ℝ) (samples : List DeBeerSample) :
    List ℝ :=
  step4 dD (step3 betac betap dD samples)

theorem qp1_le_qc {betac betap : ℝ} (hb : betap ≤ betac)
    (s : DeBeerSample) (hphi : 0 ≤ Real.tan s.phi) (hqc : 0 ≤ s.qc) :
    qp1 betac betap s ≤ s.qc := by
  rw [qp1]
  apply div_le_self hqc
  have h0 : (0 : ℝ) ≤ 2 * (betac - betap) * Real.tan s.phi := by
    apply mul_nonneg (mul_nonneg (by norm_num) (by linarith)) hphi
  calc (1 : ℝ) = Real.exp 0 := (Real.exp_zero).symm
    _ ≤ Real.exp (2 * (betac - betap) * Real.tan s.phi) :=
      Real.exp_le_exp.mpr h0

theorem step3_go_le {betac betap dD : ℝ} (hb : betap ≤ betac) :
    ∀ (rest : List DeBeerSample) (prev : ℝ),
      (∀ s ∈ rest, 0 ≤ Real.tan s.phi) → (∀ s ∈ rest, 0 ≤ s.qc) →
      List.Forall₂ (fun v s => v ≤ s.qc)
        (step3_go betac betap dD prev rest) rest := by
  intro rest
  induction rest with
  | nil => intro prev _ _; exact List.Forall₂.nil
  | cons s rest ih =>
    intro prev hphi hqc
    rw [step3_go]
    refine List.Forall₂.cons ?_ (ih _ (fun x hx => hphi x (by simp [hx]))
      (fun x hx => hqc x (by simp [hx])))
    calc min (prev + (stress_ratio s * qp1 betac betap s - prev) * dD)
          (qp1 betac betap s) ≤ qp1 betac betap s := min_le_right _ _
      _ ≤ s.qc := qp1_le_qc hb s (hphi s (by simp)) (hqc s (by simp))

theorem step3_le {betac betap dD : ℝ} (hb : betap ≤ betac)
    (samples : List DeBeerSample)
    (hphi : ∀ s ∈ samples, 0 ≤ Real.tan s.phi)
    (hqc : ∀ s ∈ samples, 0 ≤ s.qc) :
    List.Forall₂ (fun v s => v ≤ s.qc)
      (step3 betac betap dD samples) samples := by
  cases samples with
  | nil => exact List.Forall₂.nil
  | cons s rest =>
    refine List.Forall₂.cons (min_le_right _ _)
      (step3_go_le hb rest _ (fun x hx => hphi x (by simp [hx]))
        (fun x hx => hqc x (by simp [hx])))

theorem step4_go_le (dD : ℝ) :
    ∀ (rest : List ℝ) (prev : ℝ),
      List.Forall₂ (· ≤ ·) (step4_go dD prev rest) rest := by
  intro rest
  induction rest with
  | nil => intro prev; exact List.Forall₂.nil
  | cons v rest ih =>
    intro prev
    exact List.Forall₂.cons (min_le_right _ _) (ih _)

theorem step4_le (dD : ℝ) (l : List ℝ) :
    List.Forall₂ (· ≤ ·) (step4 dD l) l := by
  rw [step4]
  cases h : l.reverse with
  | nil =>
    rw [List.reverse_eq_nil_iff.mp h]
    exact List.Forall₂.nil
  | cons v rest =>
    have hl : l = (v :: rest).reverse := by
      rw [← h, List.reverse_reverse]
    rw [hl]
    exact List.rel_reverse
      (List.Forall₂.cons (le_refl v) (step4_go_le dD rest v))

theorem forall₂_le_trans {samples : List DeBeerSample} :
    ∀ {a b : List ℝ}, List.Forall₂ (· ≤ ·) a b →
      List.Forall₂ (fun v s => v ≤ s.qc) b samples →
      List.Forall₂ (fun v s => v ≤ s.qc) a samples := by
  intro a b hab hbs
  induction hbs generalizing a with
  | nil =>
    cases hab
    exact List.Forall₂.nil
  | cons hhead _ ih =>
    cases hab with
    | cons hab' htail =>
      exact List.Forall₂.cons (le_trans hab' hhead) (ih htail)

/-- C1: for every resampled trace and attached soil layering within the
method's calibration — friction angles with non-negative tangent as in
the soil-type table, pile apex half-angle not exceeding the cone apex
half-angle, and non-negative measured cone resistance — the final
corrected unit base resistance never exceeds the raw cone resistance at
any depth: Step 2 clamps to `qc`, Step 3 clamps to the Step-1 value
`q_p1 ≤ qc`, and Step 4 clamps to the Step-3 value. -/
theorem C1_qb_le_qc (betac betap dD : ℝ) (samples : List DeBeerSample)
    (hb : betap ≤ betac)
    (hphi : ∀ s ∈ samples, 0 ≤ Real.tan s.phi)
    (hqc : ∀ s ∈ samples, 0 ≤ s.qc) :
    List.Forall₂ (fun q s => q ≤ s.qc)
      (qb_profile betac betap dD samples) samples :=
  forall₂_le_trans (step4_le dD (step3 betac betap dD samples))
    (step3_le hb samples hphi hqc)

/-- A two-sample demonstration trace with zero friction angle. -/
def debeer_demo : List DeBeerSample :=
  [⟨1, 0, 0, 0, 0, 0⟩, ⟨2, 0, 0, 0, 0, 0⟩]

/-- C1 witness: the corrected resistance is bounded by the raw trace on
the demonstration samples. -/
theorem C1_witness :
    (0 : ℝ) ≤ 0 ∧ (∀ s ∈ debeer_demo, 0 ≤ Real.tan s.phi) ∧
    (∀ s ∈ debeer_demo, 0 ≤ s.qc) ∧
    List.Forall₂ (fun q s => q ≤ s.qc)
      (qb_profile 0 0 1 debeer_demo) debeer_demo := by
  have hphi : ∀ s ∈ debeer_demo, 0 ≤ Real.tan s.phi := by
    intro s hs
    rcases List.mem_cons.mp hs with rfl | hs'
    · simp [Real.tan_zero]
    · rcases List.mem_cons.mp hs' with rfl | hs''
      · simp [Real.tan_zero]
      · cases hs''
  have hqc : ∀ s ∈ debeer_demo, 0 ≤ s.qc := by
    intro s hs
    rcases List.mem_cons.mp hs with rfl | hs'
    · exact zero_le_one
    · rcases List.mem_cons.mp hs' with rfl | hs''
      · show (0 : ℝ) ≤ 2
        exact zero_le_two
      · cases hs''
  exact ⟨le_refl 0, hphi, hqc,
    C1_qb_le_qc 0 0 1 debeer_demo (le_refl 0) hphi hqc⟩

end Groundhog
